import Mathlib

/-
Verification of the NoStdVector repository (src/raw_memory.h, src/vector.h).

Shallow embedding notes.

The element type T is modelled by an explicit value type together with a
Traits record capturing the compile-time type traits that the source
consults (is_nothrow_move_constructible, is_copy_constructible), the
moved-from state a move leaves its source in, and an instrumented
construction counter oracle in the style of the test types the spec
mentions (a constructor that throws on a chosen construction count).
Allocation failure is modelled by a second oracle over an allocation
counter.

Memory is a list of slots, one per element of the allocated capacity;
a slot is none while it holds no constructed object and some x while a
live object with value x occupies it.  Placement new is a write into a
none slot, destroy writes none back, and a move leaves its source slot
holding the moved-from value.  Element assignment operators are modelled
as non-throwing (the claims under verification only concern throwing
constructors and allocation; the instrumented types assignments do not
throw).

Every fallible operation returns a thrown flag together with the full
post-state, so that the state left behind by an escaping exception is a
first-class object of the model.
-/

namespace NSV

/-- Compile-time traits and run-time instrumentation of the element type T:
nothrowMove and copyConstructible mirror is_nothrow_move_constructible_v
and is_copy_constructible_v; moved gives the (valid but unspecified) value a
moved-from object holds; ctorThrows says whether the n-th construction of a
T throws; allocThrows says whether the n-th raw allocation fails. -/
structure Traits (α : Type) where
  nothrowMove : Bool
  copyConstructible : Bool
  moved : α → α
  ctorThrows : Nat → Bool
  allocThrows : Nat → Bool

/-- Instrumentation counters: how many T constructions and how many raw
allocations have happened so far. -/
structure Cnt where
  ctor : Nat
  alloc : Nat
deriving DecidableEq, Repr

/-- Step the construction counter. -/
def Cnt.bumpCtor (c : Cnt) : Cnt := { c with ctor := c.ctor + 1 }

/-- Step the allocation counter. -/
def Cnt.bumpAlloc (c : Cnt) : Cnt := { c with alloc := c.alloc + 1 }

/-- Raw storage for a capacity of n elements: one slot per element; a slot is
none while uninitialized and some x while it holds a live object of value x. -/
abbrev Mem (α : Type) := List (Option α)

/-- Value of the slot at index i: none if the slot is uninitialized or out of
bounds, some x if a live object with value x sits there. -/
def Mem.slot (m : Mem α) (i : Nat) : Option α := (m[i]?).join

/-- Overwrite the slot at index i (no-op out of bounds, which no verified
path reaches). -/
def Mem.write (m : Mem α) (i : Nat) (x : Option α) : Mem α := m.set i x

theorem Mem.length_write (m : Mem α) (i : Nat) (x : Option α) :
    (m.write i x).length = m.length := List.length_set m i x

theorem Mem.slot_write_self (m : Mem α) (i : Nat) (x : Option α)
    (h : i < m.length) : (m.write i x).slot i = x := by
  simp [Mem.write, Mem.slot, List.getElem?_set_self, h]

theorem Mem.slot_write_ne (m : Mem α) (i j : Nat) (x : Option α)
    (h : i ≠ j) : (m.write i x).slot j = m.slot j := by
  simp [Mem.write, Mem.slot, List.getElem?_set_ne, h]

theorem Mem.slot_oob (m : Mem α) (i : Nat) (h : m.length ≤ i) :
    m.slot i = none := by
  simp [Mem.slot, List.getElem?_eq_none h]

/-- One construction of a T resulting in value v: consults the instrumented
construction counter and throws (returns none) when the oracle says so. -/
def construct (tt : Traits α) (c : Cnt) (v : α) : Option α × Cnt :=
  if tt.ctorThrows c.ctor then (none, c.bumpCtor) else (some v, c.bumpCtor)

/-- Move-construction of a T from the live object in slot i: yields the value
and the source memory with slot i left in the moved-from state.  A move can
throw only when the move constructor is not nothrow; the throwing call
happens before the source is mutated. -/
def moveConstructFrom [Inhabited α] (tt : Traits α) (c : Cnt) (m : Mem α)
    (i : Nat) : Option α × Mem α × Cnt :=
  if tt.nothrowMove = false ∧ tt.ctorThrows c.ctor then
    (none, m, c.bumpCtor)
  else
    let x := (m.slot i).getD default
    (some x, m.write i (some (tt.moved x)), c.bumpCtor)

/-- RawMemory Allocate: n == 0 yields no block (empty memory), otherwise the
allocation oracle decides between an OutOfMemory throw (none) and a fresh
block of n uninitialized slots. -/
def Allocate (tt : Traits α) (c : Cnt) (n : Nat) : Option (Mem α) × Cnt :=
  if n = 0 then (some [], c)
  else if tt.allocThrows c.alloc then (none, c.bumpAlloc)
  else (some (List.replicate n none), c.bumpAlloc)

/-- std uninitialized copy of n elements from slots starting at s0 of src into
slots starting at d0 of dst.  The Bool is the thrown flag; the destination
memory is returned even on a throw, with the already constructed copies
destroyed again (the rollback the standard algorithm performs).  The source
is never mutated by a copy. -/
def uninitializedCopyN [Inhabited α] (tt : Traits α) :
    Mem α → Nat → Nat → Mem α → Nat → Cnt → Bool × Mem α × Cnt
  | _, _, 0, dst, _, c => (false, dst, c)
  | src, s0, n + 1, dst, d0, c =>
    match construct tt c ((src.slot s0).getD default) with
    | (none, c1) => (true, dst, c1)
    | (some xv, c1) =>
      match uninitializedCopyN tt src (s0 + 1) n (dst.write d0 (some xv)) (d0 + 1) c1 with
      | (true, m, c2) => (true, m.write d0 none, c2)
      | (false, m, c2) => (false, m, c2)

/-- std uninitialized move of n elements from slots starting at s0 of src into
slots starting at d0 of dst.  Returns thrown flag, source memory, destination
memory, counters.  On a throw the constructed destination elements are
destroyed again, while the already moved-from source slots keep their
moved-from values. -/
def uninitializedMoveN [Inhabited α] (tt : Traits α) :
    Mem α → Nat → Nat → Mem α → Nat → Cnt → Bool × Mem α × Mem α × Cnt
  | src, _, 0, dst, _, c => (false, src, dst, c)
  | src, s0, n + 1, dst, d0, c =>
    match moveConstructFrom tt c src s0 with
    | (none, src1, c1) => (true, src1, dst, c1)
    | (some x, src1, c1) =>
      match uninitializedMoveN tt src1 (s0 + 1) n (dst.write d0 (some x)) (d0 + 1) c1 with
      | (true, s2, m, c2) => (true, s2, m.write d0 none, c2)
      | (false, s2, m, c2) => (false, s2, m, c2)

/-- Vector Reallocate: relocates n elements from slots starting at s0 of src
into slots starting at d0 of dst, move-constructing when
is_nothrow_move_constructible_v or not is_copy_constructible_v, otherwise
copy-constructing.  Same result shape as the move primitive; on the copy
branch the source comes back untouched. -/
def Reallocate [Inhabited α] (tt : Traits α) (src : Mem α) (s0 n : Nat)
    (dst : Mem α) (d0 : Nat) (c : Cnt) : Bool × Mem α × Mem α × Cnt :=
  if tt.nothrowMove || !tt.copyConstructible then
    uninitializedMoveN tt src s0 n dst d0 c
  else
    match uninitializedCopyN tt src s0 n dst d0 c with
    | (e, m, c1) => (e, src, m, c1)

/-- std destroy of n live objects in the slots starting at index i. -/
def destroyN (m : Mem α) (i : Nat) : Nat → Mem α
  | 0 => m
  | n + 1 => destroyN (m.write i none) (i + 1) n

/-- std uninitialized value-construction of n default-constructed elements
into the slots starting at d0; rollback on a throw as in the copy primitive. -/
def uninitializedValueConstructN [Inhabited α] (tt : Traits α) :
    Mem α → Nat → Nat → Cnt → Bool × Mem α × Cnt
  | dst, _, 0, c => (false, dst, c)
  | dst, d0, n + 1, c =>
    match construct tt c default with
    | (none, c1) => (true, dst, c1)
    | (some xv, c1) =>
      match uninitializedValueConstructN tt (dst.write d0 (some xv)) (d0 + 1) n c1 with
      | (true, m, c2) => (true, m.write d0 none, c2)
      | (false, m, c2) => (false, m, c2)

/-- One move assignment between slots: dst = std move of src.  The source
slot is left holding its moved-from value.  Element assignment is modelled
as non-throwing. -/
def moveAssignSlot (tt : Traits α) (m : Mem α) (s d : Nat) : Mem α :=
  match m.slot s with
  | none => m
  | some x => (m.write s (some (tt.moved x))).write d (some x)

/-- std move_backward of the k slots starting at index first, shifted one
slot to the right (the only shape the source uses: d_last is one past the
end of the source range).  Processes the highest element first. -/
def moveBackwardShift (tt : Traits α) (m : Mem α) (first : Nat) : Nat → Mem α
  | 0 => m
  | k + 1 => moveBackwardShift tt (moveAssignSlot tt m (first + k) (first + k + 1)) first k

/-- std move of the k slots starting at index dst + 1, shifted one slot to
the left (the shape Erase uses).  Processes the lowest element first. -/
def moveShiftLeft (tt : Traits α) (m : Mem α) (dst : Nat) : Nat → Mem α
  | 0 => m
  | k + 1 => moveShiftLeft tt (moveAssignSlot tt m (dst + 1) dst) (dst + 1) k

/-- std copy_n of the values of the first n slots from src into dst by copy
assignment, lowest index first; assignment is modelled as non-throwing. -/
def copyAssignN (src : Mem α) : Mem α → Nat → Nat → Mem α
  | dst, _, 0 => dst
  | dst, i, n + 1 => copyAssignN src (dst.write i (src.slot i)) (i + 1) n

/-- Vector of vector.h: a RawMemory block of slots plus the count of live
elements occupying its leading slots. -/
structure Vector (α : Type) where
  data : Mem α
  size : Nat
deriving DecidableEq, Repr

/-- Vector Size. -/
def Vector.Size (v : Vector α) : Nat := v.size

/-- Vector Capacity: the capacity of the owned RawMemory. -/
def Vector.Capacity (v : Vector α) : Nat := v.data.length

/-- Values of the live elements of the vector, in slot order. -/
def Vector.contents [Inhabited α] (v : Vector α) : List α :=
  (List.range v.size).map fun i => (v.data.slot i).getD default

/-- Class invariant of the vector: the live count never exceeds the capacity
and every slot below it holds a constructed object. -/
def Inv (v : Vector α) : Prop :=
  v.size ≤ v.Capacity ∧ ∀ i, i < v.size → (v.data.slot i).isSome = true

/-- Result of a fallible vector operation: whether an exception escaped, the
vector state observable afterwards, and the instrumentation counters. -/
structure VRes (α : Type) where
  thrown : Bool
  vec : Vector α
  cnt : Cnt
deriving DecidableEq, Repr

/-- Vector EmplaceBack.  The constructor arguments are modelled as a function
mk of the memory they may refer into; the value mk produces is fixed at the
moment the source evaluates the placement-new expression, i.e. while the old
storage is intact. -/
def EmplaceBack [Inhabited α] (tt : Traits α) (c : Cnt) (v : Vector α)
    (mk : Mem α → α) : VRes α :=
  if v.size = v.Capacity then
    let newCapacity := if v.size = 0 then 1 else v.size * 2
    match Allocate tt c newCapacity with
    | (none, c1) => ⟨true, v, c1⟩
    | (some nd, c1) =>
      match construct tt c1 (mk v.data) with
      | (none, c2) => ⟨true, v, c2⟩
      | (some xv, c2) =>
        let nd1 := nd.write v.size (some xv)
        match Reallocate tt v.data 0 v.size nd1 0 c2 with
        | (true, src2, _, c3) => ⟨true, { v with data := src2 }, c3⟩
        | (false, _, dst2, c3) => ⟨false, ⟨dst2, v.size + 1⟩, c3⟩
  else
    match construct tt c (mk v.data) with
    | (none, c1) => ⟨true, v, c1⟩
    | (some xv, c1) => ⟨false, ⟨v.data.write v.size (some xv), v.size + 1⟩, c1⟩

/-- Vector PushBack: forwards its value to EmplaceBack. -/
def PushBack [Inhabited α] (tt : Traits α) (c : Cnt) (v : Vector α) (x : α) :
    VRes α :=
  EmplaceBack tt c v fun _ => x

/-- Vector PopBack (the body; its assertion guard is modelled separately). -/
def PopBack (v : Vector α) : Vector α :=
  ⟨v.data.write (v.size - 1) none, v.size - 1⟩

/-- Guard of the debug assertion assert(offset <= capacity_) inside RawMemory
operator+ as evaluated by PopBack.  The source expression data_ + size_ - 1U
parses as (data_ + size_) - 1U (additive operators are left-associative), so
the offset handed to operator+ is size_ itself; the - 1U is applied to the
returned pointer afterwards, outside any assertion. -/
def PopBackAssertHolds (v : Vector α) : Prop :=
  v.size ≤ v.Capacity

instance (v : Vector α) : Decidable (PopBackAssertHolds v) := by
  unfold PopBackAssertHolds; infer_instance

/-- Vector Emplace at boundary position dist (the source computes dist as
pos - cbegin()).  Follows the three branches of the source: delegate to
EmplaceBack at the end boundary, shift within spare capacity, or grow. -/
def Emplace [Inhabited α] (tt : Traits α) (c : Cnt) (v : Vector α)
    (dist : Nat) (mk : Mem α → α) : VRes α :=
  if v.size = dist then EmplaceBack tt c v mk
  else if v.size < v.Capacity then
    match construct tt c (mk v.data) with
    | (none, c1) => ⟨true, v, c1⟩
    | (some temp, c1) =>
      match moveConstructFrom tt c1 v.data (v.size - 1) with
      | (none, _, c2) => ⟨true, v, c2⟩
      | (some last, m1, c2) =>
        let m2 := m1.write v.size (some last)
        let m3 := moveBackwardShift tt m2 dist (v.size - 1 - dist)
        let m4 := m3.write dist (some temp)
        ⟨false, ⟨m4, v.size + 1⟩, c2⟩
  else
    match Allocate tt c (v.size * 2) with
    | (none, c1) => ⟨true, v, c1⟩
    | (some nd, c1) =>
      match construct tt c1 (mk v.data) with
      | (none, c2) => ⟨true, v, c2⟩
      | (some xv, c2) =>
        let nd1 := nd.write dist (some xv)
        match Reallocate tt v.data 0 dist nd1 0 c2 with
        | (true, s2, _, c3) => ⟨true, { v with data := s2 }, c3⟩
        | (false, s2, d2, c3) =>
          match Reallocate tt s2 dist (v.size - dist) d2 (dist + 1) c3 with
          | (true, s3, _, c4) => ⟨true, { v with data := s3 }, c4⟩
          | (false, _, d3, c4) => ⟨false, ⟨d3, v.size + 1⟩, c4⟩

/-- Vector Insert: forwards its value to Emplace. -/
def Insert [Inhabited α] (tt : Traits α) (c : Cnt) (v : Vector α)
    (dist : Nat) (x : α) : VRes α :=
  Emplace tt c v dist fun _ => x

/-- Vector Erase at element position dist.  Erasing the last element goes
through Resize(dist), which destroys the one trailing element; otherwise the
tail is move-assigned one slot left and the now duplicate last slot is
destroyed.  No step of either branch can throw in the model. -/
def Erase (tt : Traits α) (v : Vector α) (dist : Nat) : Vector α :=
  if dist + 1 = v.size then
    ⟨destroyN v.data dist (v.size - dist), dist⟩
  else
    let m1 := moveShiftLeft tt v.data dist (v.size - 1 - dist)
    ⟨m1.write (v.size - 1) none, v.size - 1⟩

/-- Vector Reserve. -/
def Reserve [Inhabited α] (tt : Traits α) (c : Cnt) (v : Vector α)
    (newCapacity : Nat) : VRes α :=
  if newCapacity ≤ v.Capacity then ⟨false, v, c⟩
  else
    match Allocate tt c newCapacity with
    | (none, c1) => ⟨true, v, c1⟩
    | (some nd, c1) =>
      match Reallocate tt v.data 0 v.size nd 0 c1 with
      | (true, s2, _, c2) => ⟨true, { v with data := s2 }, c2⟩
      | (false, _, d2, c2) => ⟨false, ⟨d2, v.size⟩, c2⟩

/-- Vector Resize.  On the grow branch size_ is assigned only after the new
elements have been constructed, so a throw leaves the old size. -/
def Resize [Inhabited α] (tt : Traits α) (c : Cnt) (v : Vector α)
    (newSize : Nat) : VRes α :=
  if newSize ≤ v.size then
    ⟨false, ⟨destroyN v.data newSize (v.size - newSize), newSize⟩, c⟩
  else
    match Reserve tt c v newSize with
    | ⟨true, v1, c1⟩ => ⟨true, v1, c1⟩
    | ⟨false, v1, c1⟩ =>
      match uninitializedValueConstructN tt v1.data v.size (newSize - v.size) c1 with
      | (true, m, c2) => ⟨true, ⟨m, v.size⟩, c2⟩
      | (false, m, c2) => ⟨false, ⟨m, newSize⟩, c2⟩

/-- Vector Swap: exchanges storage and size of the two objects. -/
def Swap (v other : Vector α) : Vector α × Vector α :=
  (⟨other.data, other.size⟩, ⟨v.data, v.size⟩)

/-- Vector move constructor: default-construct then Swap with the source;
returns (new object, moved-from source). -/
def moveCtor (other : Vector α) : Vector α × Vector α :=
  (other, ⟨[], 0⟩)

/-- Vector move assignment: identity check then Swap; returns (assigned-to
object, right-hand side afterwards). -/
def moveAssign (self rhs : Vector α) (isSelf : Bool) : Vector α × Vector α :=
  if isSelf then (self, rhs) else (rhs, self)

/-- Vector copy constructor: allocate exactly other.size slots and
uninitialized-copy the elements across; none on a throw (the partial copies
are destroyed and the fresh block released during unwinding). -/
def copyCtor [Inhabited α] (tt : Traits α) (c : Cnt) (other : Vector α) :
    Option (Vector α) × Cnt :=
  match Allocate tt c other.size with
  | (none, c1) => (none, c1)
  | (some nd, c1) =>
    match uninitializedCopyN tt other.data 0 other.size nd 0 c1 with
    | (true, _, c2) => (none, c2)
    | (false, m, c2) => (some ⟨m, other.size⟩, c2)

/-- Vector sized constructor Vector(size): allocate size slots and
value-construct size elements; none on a throw. -/
def mkSized [Inhabited α] (tt : Traits α) (c : Cnt) (n : Nat) :
    Option (Vector α) × Cnt :=
  match Allocate tt c n with
  | (none, c1) => (none, c1)
  | (some nd, c1) =>
    match uninitializedValueConstructN tt nd 0 n c1 with
    | (true, _, c2) => (none, c2)
    | (false, m, c2) => (some ⟨m, n⟩, c2)

/-- Vector copy assignment; isSelf models the this == addressof rhs identity
check.  The branch for rhs.size_ > Capacity() copies rhs into a temporary
vector and swaps it in; the in-place branch assigns over the common prefix,
then either uninitialized-copies the extra tail of rhs or destroys the
excess trailing elements. -/
def copyAssign [Inhabited α] (tt : Traits α) (c : Cnt) (self rhs : Vector α)
    (isSelf : Bool) : VRes α :=
  if isSelf then ⟨false, self, c⟩
  else if rhs.size > self.Capacity then
    match copyCtor tt c rhs with
    | (none, c1) => ⟨true, self, c1⟩
    | (some rc, c1) => ⟨false, rc, c1⟩
  else
    let m1 := copyAssignN rhs.data self.data 0 (min self.size rhs.size)
    if self.size < rhs.size then
      match uninitializedCopyN tt rhs.data self.size (rhs.size - self.size) m1 self.size c with
      | (true, m2, c1) => ⟨true, ⟨m2, self.size⟩, c1⟩
      | (false, m2, c1) => ⟨false, ⟨m2, rhs.size⟩, c1⟩
    else
      ⟨false, ⟨destroyN m1 rhs.size (self.size - rhs.size), rhs.size⟩, c⟩

/-- RawMemory of raw_memory.h at the level of the owned pointer: the numeric
address of the buffer (0 encodes nullptr) and the capacity.  Used to check
the move-transfer claims, where the pointer values themselves matter. -/
structure RawMemory where
  buffer : Nat
  capacity : Nat
deriving DecidableEq, Repr

/-- RawMemory move constructor: members start as nullptr and 0, then swap
with the source.  Returns (new object, source afterwards). -/
def RawMemory.moveCtor (other : RawMemory) : RawMemory × RawMemory :=
  (⟨other.buffer, other.capacity⟩, ⟨0, 0⟩)

/-- RawMemory move assignment, step for step from the source: Deallocate the
own buffer (which frees the block but leaves the pointer value in place),
swap the buffer pointers, then exchange the capacities with 0.  Returns
(assigned-to object, right-hand side afterwards).  The source function ends
without a return statement. -/
def RawMemory.moveAssign (self rhs : RawMemory) : RawMemory × RawMemory :=
  (⟨rhs.buffer, rhs.capacity⟩, ⟨self.buffer, 0⟩)

/-- The public mutating operations of the vector, reified so that the class
invariant can be stated over arbitrary operation sequences. -/
inductive Op (α : Type) where
  | pushBack (x : α)
  | emplaceBack (mk : Mem α → α)
  | popBack
  | reserve (n : Nat)
  | resize (n : Nat)
  | insert (p : Nat) (x : α)
  | emplace (p : Nat) (mk : Mem α → α)
  | eraseAt (p : Nat)
  | copyAssignFrom (rhs : Vector α)
  | copyAssignSelf
  | moveAssignFrom (rhs : Vector α)
  | moveAssignSelf
  | swapWith (rhs : Vector α)

/-- Precondition for applying an operation to a vector: the documented
preconditions (PopBack on a non-empty vector, positions within bounds), and
for operations taking another vector that the other vector itself satisfies
the class invariant. -/
def Op.pre [Inhabited α] : Op α → Vector α → Prop
  | .pushBack _, _ => True
  | .emplaceBack _, _ => True
  | .popBack, v => 0 < v.size
  | .reserve _, _ => True
  | .resize _, _ => True
  | .insert p _, v => p ≤ v.size
  | .emplace p _, v => p ≤ v.size
  | .eraseAt p, v => p < v.size
  | .copyAssignFrom rhs, _ => Inv rhs
  | .copyAssignSelf, _ => True
  | .moveAssignFrom rhs, _ => Inv rhs
  | .moveAssignSelf, _ => True
  | .swapWith rhs, _ => Inv rhs

/-- Apply one public operation, returning the vector observable afterwards
(also when the operation threw) and the instrumentation counters. -/
def Op.step [Inhabited α] (tt : Traits α) : Op α → Vector α → Cnt → Vector α × Cnt
  | .pushBack x, v, c => ((PushBack tt c v x).vec, (PushBack tt c v x).cnt)
  | .emplaceBack mk, v, c => ((EmplaceBack tt c v mk).vec, (EmplaceBack tt c v mk).cnt)
  | .popBack, v, c => (PopBack v, c)
  | .reserve n, v, c => ((Reserve tt c v n).vec, (Reserve tt c v n).cnt)
  | .resize n, v, c => ((Resize tt c v n).vec, (Resize tt c v n).cnt)
  | .insert p x, v, c => ((Insert tt c v p x).vec, (Insert tt c v p x).cnt)
  | .emplace p mk, v, c => ((Emplace tt c v p mk).vec, (Emplace tt c v p mk).cnt)
  | .eraseAt p, v, c => (Erase tt v p, c)
  | .copyAssignFrom rhs, v, c =>
    ((copyAssign tt c v rhs false).vec, (copyAssign tt c v rhs false).cnt)
  | .copyAssignSelf, v, c => ((copyAssign tt c v v true).vec, (copyAssign tt c v v true).cnt)
  | .moveAssignFrom rhs, v, c => ((moveAssign v rhs false).1, c)
  | .moveAssignSelf, v, c => ((moveAssign v v true).1, c)
  | .swapWith rhs, v, c => ((Swap v rhs).1, c)

/-- The sequence of vector states observable after each operation of a run. -/
def runStates [Inhabited α] (tt : Traits α) : List (Op α) → Vector α → Cnt → List (Vector α)
  | [], _, _ => []
  | op :: ops, v, c =>
    (op.step tt v c).1 :: runStates tt ops (op.step tt v c).1 (op.step tt v c).2

/-- All preconditions hold along a run. -/
def PreAll [Inhabited α] (tt : Traits α) : List (Op α) → Vector α → Cnt → Prop
  | [], _, _ => True
  | op :: ops, v, c => op.pre v ∧ PreAll tt ops (op.step tt v c).1 (op.step tt v c).2

instance instDecidableInv (v : Vector α) : Decidable (Inv v) := by
  unfold Inv Vector.Capacity
  infer_instance

instance instDecidableOpPre [Inhabited α] (op : Op α) (v : Vector α) :
    Decidable (op.pre v) := by
  cases op <;> unfold Op.pre <;> infer_instance

/-- Decision procedure for PreAll, by structural recursion over the run. -/
def decPreAll [Inhabited α] (tt : Traits α) :
    (ops : List (Op α)) → (v : Vector α) → (c : Cnt) → Decidable (PreAll tt ops v c)
  | [], _, _ => isTrue trivial
  | op :: ops, v, c =>
    @instDecidableAnd _ _ (instDecidableOpPre op v)
      (decPreAll tt ops (op.step tt v c).1 (op.step tt v c).2)

instance instDecidablePreAll [Inhabited α] (tt : Traits α) (ops : List (Op α))
    (v : Vector α) (c : Cnt) : Decidable (PreAll tt ops v c) :=
  decPreAll tt ops v c

/-- Instrumented int-like element type: non-throwing move, copy-constructible,
no construction ever throws, no allocation ever fails. -/
def ttNat : Traits Nat := ⟨true, true, id, fun _ => false, fun _ => false⟩

/-- Move-only element type with a throwing move: not copy-constructible, move
not nothrow, a moved-from object holds 0, and every construction from the
third one on throws. -/
def ttMoveOnly : Traits Nat := ⟨false, false, fun _ => 0, fun n => decide (2 ≤ n), fun _ => false⟩

/-- Copy-constructible element type with a potentially throwing move
constructor (the relocation policy must choose copying); every construction
from the third one on throws. -/
def ttCopyThrow : Traits Nat := ⟨false, true, fun _ => 0, fun n => decide (2 ≤ n), fun _ => false⟩

/-- Element type whose every construction throws. -/
def ttThrowAll : Traits Nat := ⟨true, true, id, fun _ => true, fun _ => false⟩

/-- Fresh instrumentation counters. -/
def c0 : Cnt := ⟨0, 0⟩

/-- Concrete scenario states: empty vector, then PushBack 1, 2, 3, then
Insert of 99 before position 1, then Erase at position 0, then PopBack. -/
def sc0 : Vector Nat := ⟨[], 0⟩

/-- Scenario state after PushBack 1. -/
def sc1 : Vector Nat := (PushBack ttNat c0 sc0 1).vec

/-- Scenario state after PushBack 2. -/
def sc2 : Vector Nat := (PushBack ttNat c0 sc1 2).vec

/-- Scenario state after PushBack 3. -/
def sc3 : Vector Nat := (PushBack ttNat c0 sc2 3).vec

/-- Scenario state after Insert of 99 before position 1. -/
def sc4 : Vector Nat := (Insert ttNat c0 sc3 1 99).vec

/-- Scenario state after Erase at position 0. -/
def sc5 : Vector Nat := Erase ttNat sc4 0

/-- Scenario state after PopBack. -/
def sc6 : Vector Nat := PopBack sc5

/-- Concrete vector used by the aliasing witness: two live elements 10 and
20 with one spare slot. -/
def vAlias : Vector Nat := ⟨[some 10, some 20, none], 2⟩

/-- Emplace arguments that refer to an existing element of the same vector:
the construction reads the element at index 1. -/
def mkAlias : Mem Nat → Nat := fun m => (Mem.slot m 1).getD 0

/-- Operation sequence used by the invariant witness. -/
def opsW : List (Op Nat) :=
  [.pushBack 1, .pushBack 2, .insert 0 5, .eraseAt 1, .popBack,
   .reserve 10, .resize 3, .copyAssignFrom ⟨[some 8], 1⟩, .copyAssignSelf,
   .moveAssignFrom ⟨[some 9], 1⟩, .moveAssignSelf, .swapWith ⟨[], 0⟩, .resize 0]

theorem length_uninitializedCopyN [Inhabited α] (tt : Traits α) (n : Nat) :
    ∀ (src : Mem α) (s0 : Nat) (dst : Mem α) (d0 : Nat) (c : Cnt),
      ((uninitializedCopyN tt src s0 n dst d0 c).2.1).length = dst.length := by
  induction n with
  | zero => intro src s0 dst d0 c; rfl
  | succ n ih =>
    intro src s0 dst d0 c
    unfold uninitializedCopyN
    cases hcon : construct tt c ((src.slot s0).getD default) with
    | mk o c1 =>
      cases o with
      | none => rfl
      | some xv =>
        have h := ih src (s0 + 1) (dst.write d0 (some xv)) (d0 + 1) c1
        cases hrec : uninitializedCopyN tt src (s0 + 1) n (dst.write d0 (some xv)) (d0 + 1) c1 with
        | mk e rest =>
          cases rest with
          | mk m c2 =>
            rw [hrec] at h
            cases e <;>
              simp_all [Mem.length_write]

theorem slot_uninitializedCopyN_outside [Inhabited α] (tt : Traits α) (n : Nat) :
    ∀ (src : Mem α) (s0 : Nat) (dst : Mem α) (d0 : Nat) (c : Cnt) (j : Nat),
      (j < d0 ∨ d0 + n ≤ j) →
      ((uninitializedCopyN tt src s0 n dst d0 c).2.1).slot j = dst.slot j := by
  induction n with
  | zero => intro src s0 dst d0 c j _; rfl
  | succ n ih =>
    intro src s0 dst d0 c j hj
    have hjd : d0 ≠ j := by omega
    unfold uninitializedCopyN
    cases hcon : construct tt c ((src.slot s0).getD default) with
    | mk o c1 =>
      cases o with
      | none => rfl
      | some xv =>
        have h := ih src (s0 + 1) (dst.write d0 (some xv)) (d0 + 1) c1 j (by omega)
        cases hrec : uninitializedCopyN tt src (s0 + 1) n (dst.write d0 (some xv)) (d0 + 1) c1 with
        | mk e rest =>
          cases rest with
          | mk m c2 =>
            rw [hrec] at h
            cases e <;>
              simp_all [Mem.slot_write_ne _ _ _ _ hjd]

theorem slot_uninitializedCopyN_ok [Inhabited α] (tt : Traits α) (n : Nat) :
    ∀ (src : Mem α) (s0 : Nat) (dst : Mem α) (d0 : Nat) (c : Cnt),
      d0 + n ≤ dst.length →
      (uninitializedCopyN tt src s0 n dst d0 c).1 = false →
      ∀ i, i < n →
        ((uninitializedCopyN tt src s0 n dst d0 c).2.1).slot (d0 + i) =
          some ((src.slot (s0 + i)).getD default) := by
  induction n with
  | zero => intro src s0 dst d0 c _ _ i hi; omega
  | succ n ih =>
    intro src s0 dst d0 c hlen hok i hi
    unfold uninitializedCopyN at hok ⊢
    cases hcon : construct tt c ((src.slot s0).getD default) with
    | mk o c1 =>
      cases o with
      | none => rw [hcon] at hok; simp at hok
      | some xv =>
        have hxv : xv = (src.slot s0).getD default := by
          unfold construct at hcon
          by_cases hth : tt.ctorThrows c.ctor
          · simp [hth] at hcon
          · simp [hth] at hcon
            exact hcon.1.symm
        cases hrec : uninitializedCopyN tt src (s0 + 1) n (dst.write d0 (some xv)) (d0 + 1) c1 with
        | mk e rest =>
          cases rest with
          | mk m c2 =>
            simp only [hcon, hrec] at hok
            cases e with
            | true => simp at hok
            | false =>
              simp only [hcon, hrec]
              rcases Nat.eq_zero_or_pos i with hi0 | hip
              · subst hi0
                have hout := slot_uninitializedCopyN_outside tt n src (s0 + 1)
                  (dst.write d0 (some xv)) (d0 + 1) c1 d0 (by omega)
                rw [hrec] at hout
                simp only at hout
                rw [Nat.add_zero, hout, Mem.slot_write_self _ _ _ (by omega)]
                simp [hxv]
              · obtain ⟨i, rfl⟩ : ∃ j, i = j + 1 := ⟨i - 1, by omega⟩
                have hin := ih src (s0 + 1) (dst.write d0 (some xv)) (d0 + 1) c1
                  (by rw [Mem.length_write]; omega) (by rw [hrec]) i (by omega)
                rw [hrec] at hin
                simp only at hin
                have e1 : d0 + 1 + i = d0 + (i + 1) := by omega
                have e2 : s0 + 1 + i = s0 + (i + 1) := by omega
                rw [e1, e2] at hin
                exact hin

theorem length_uninitializedValueConstructN [Inhabited α] (tt : Traits α) (n : Nat) :
    ∀ (dst : Mem α) (d0 : Nat) (c : Cnt),
      ((uninitializedValueConstructN tt dst d0 n c).2.1).length = dst.length := by
  induction n with
  | zero => intro dst d0 c; rfl
  | succ n ih =>
    intro dst d0 c
    unfold uninitializedValueConstructN
    cases hcon : construct tt c (default : α) with
    | mk o c1 =>
      cases o with
      | none => rfl
      | some xv =>
        have h := ih (dst.write d0 (some xv)) (d0 + 1) c1
        cases hrec : uninitializedValueConstructN tt (dst.write d0 (some xv)) (d0 + 1) n c1 with
        | mk e rest =>
          cases rest with
          | mk m c2 =>
            rw [hrec] at h
            cases e <;>
              simp_all [Mem.length_write]

theorem slot_uninitializedValueConstructN_outside [Inhabited α] (tt : Traits α) (n : Nat) :
    ∀ (dst : Mem α) (d0 : Nat) (c : Cnt) (j : Nat),
      (j < d0 ∨ d0 + n ≤ j) →
      ((uninitializedValueConstructN tt dst d0 n c).2.1).slot j = dst.slot j := by
  induction n with
  | zero => intro dst d0 c j _; rfl
  | succ n ih =>
    intro dst d0 c j hj
    have hjd : d0 ≠ j := by omega
    unfold uninitializedValueConstructN
    cases hcon : construct tt c (default : α) with
    | mk o c1 =>
      cases o with
      | none => rfl
      | some xv =>
        have h := ih (dst.write d0 (some xv)) (d0 + 1) c1 j (by omega)
        cases hrec : uninitializedValueConstructN tt (dst.write d0 (some xv)) (d0 + 1) n c1 with
        | mk e rest =>
          cases rest with
          | mk m c2 =>
            rw [hrec] at h
            cases e <;>
              simp_all [Mem.slot_write_ne _ _ _ _ hjd]

theorem slot_uninitializedValueConstructN_ok [Inhabited α] (tt : Traits α) (n : Nat) :
    ∀ (dst : Mem α) (d0 : Nat) (c : Cnt),
      d0 + n ≤ dst.length →
      (uninitializedValueConstructN tt dst d0 n c).1 = false →
      ∀ i, i < n →
        ((uninitializedValueConstructN tt dst d0 n c).2.1).slot (d0 + i) =
          some (default : α) := by
  induction n with
  | zero => intro dst d0 c _ _ i hi; omega
  | succ n ih =>
    intro dst d0 c hlen hok i hi
    unfold uninitializedValueConstructN at hok ⊢
    cases hcon : construct tt c (default : α) with
    | mk o c1 =>
      cases o with
      | none => rw [hcon] at hok; simp at hok
      | some xv =>
        have hxv : xv = (default : α) := by
          unfold construct at hcon
          by_cases hth : tt.ctorThrows c.ctor
          · simp [hth] at hcon
          · simp [hth] at hcon
            exact hcon.1.symm
        cases hrec : uninitializedValueConstructN tt (dst.write d0 (some xv)) (d0 + 1) n c1 with
        | mk e rest =>
          cases rest with
          | mk m c2 =>
            simp only [hcon, hrec] at hok
            cases e with
            | true => simp at hok
            | false =>
              simp only [hcon, hrec]
              rcases Nat.eq_zero_or_pos i with hi0 | hip
              · subst hi0
                have hout := slot_uninitializedValueConstructN_outside tt n
                  (dst.write d0 (some xv)) (d0 + 1) c1 d0 (by omega)
                rw [hrec] at hout
                simp only at hout
                rw [Nat.add_zero, hout, Mem.slot_write_self _ _ _ (by omega)]
                simp [hxv]
              · obtain ⟨i, rfl⟩ : ∃ j, i = j + 1 := ⟨i - 1, by omega⟩
                have hin := ih (dst.write d0 (some xv)) (d0 + 1) c1
                  (by rw [Mem.length_write]; omega) (by rw [hrec]) i (by omega)
                rw [hrec] at hin
                simp only at hin
                have e1 : d0 + 1 + i = d0 + (i + 1) := by omega
                rw [e1] at hin
                exact hin

theorem length_destroyN (n : Nat) :
    ∀ (m : Mem α) (i : Nat), (destroyN m i n).length = m.length := by
  induction n with
  | zero => intro m i; rfl
  | succ n ih =>
    intro m i
    unfold destroyN
    rw [ih, Mem.length_write]

theorem slot_destroyN_outside (n : Nat) :
    ∀ (m : Mem α) (i : Nat) (j : Nat), (j < i ∨ i + n ≤ j) →
      (destroyN m i n).slot j = m.slot j := by
  induction n with
  | zero => intro m i j _; rfl
  | succ n ih =>
    intro m i j hj
    unfold destroyN
    rw [ih _ _ _ (by omega), Mem.slot_write_ne _ _ _ _ (by omega)]

theorem slot_destroyN_inside (n : Nat) :
    ∀ (m : Mem α) (i : Nat) (j : Nat), i ≤ j → j < i + n →
      (destroyN m i n).slot j = none := by
  induction n with
  | zero => intro m i j h1 h2; omega
  | succ n ih =>
    intro m i j h1 h2
    unfold destroyN
    rcases Nat.lt_or_ge j (i + 1) with hj | hj
    · have hij : i = j := by omega
      subst hij
      rw [slot_destroyN_outside n _ _ _ (by omega)]
      by_cases hl : i < m.length
      · exact Mem.slot_write_self _ _ _ hl
      · rw [Mem.write, List.set_eq_of_length_le (by omega)]
        exact Mem.slot_oob _ _ (by omega)
    · exact ih _ _ _ hj (by omega)

theorem length_copyAssignN (n : Nat) :
    ∀ (src dst : Mem α) (i : Nat), (copyAssignN src dst i n).length = dst.length := by
  induction n with
  | zero => intro src dst i; rfl
  | succ n ih =>
    intro src dst i
    unfold copyAssignN
    rw [ih, Mem.length_write]

theorem slot_copyAssignN_outside (n : Nat) :
    ∀ (src dst : Mem α) (i : Nat) (j : Nat), (j < i ∨ i + n ≤ j) →
      (copyAssignN src dst i n).slot j = dst.slot j := by
  induction n with
  | zero => intro src dst i j _; rfl
  | succ n ih =>
    intro src dst i j hj
    unfold copyAssignN
    rw [ih _ _ _ _ (by omega), Mem.slot_write_ne _ _ _ _ (by omega)]

theorem slot_copyAssignN_inside (n : Nat) :
    ∀ (src dst : Mem α) (i : Nat) (j : Nat), i ≤ j → j < i + n → j < dst.length →
      (copyAssignN src dst i n).slot j = src.slot j := by
  induction n with
  | zero => intro src dst i j h1 h2 _; omega
  | succ n ih =>
    intro src dst i j h1 h2 hl
    unfold copyAssignN
    rcases Nat.lt_or_ge j (i + 1) with hj | hj
    · have hij : i = j := by omega
      subst hij
      rw [slot_copyAssignN_outside n _ _ _ _ (by omega)]
      exact Mem.slot_write_self _ _ _ hl
    · exact ih _ _ _ _ hj (by omega) (by rw [Mem.length_write]; omega)

theorem moveConstructFrom_ok [Inhabited α] (tt : Traits α) (c : Cnt) (m : Mem α)
    (i : Nat) (x : α) (m1 : Mem α) (c1 : Cnt)
    (h : moveConstructFrom tt c m i = (some x, m1, c1)) :
    x = (m.slot i).getD default ∧ m1 = m.write i (some (tt.moved x)) ∧ c1 = c.bumpCtor := by
  unfold moveConstructFrom at h
  by_cases hth : tt.nothrowMove = false ∧ tt.ctorThrows c.ctor
  · simp [hth] at h
  · simp [hth] at h
    obtain ⟨h1, h2, h3⟩ := h
    subst h1
    exact ⟨rfl, h2.symm, h3.symm⟩

theorem moveConstructFrom_err [Inhabited α] (tt : Traits α) (c : Cnt) (m : Mem α)
    (i : Nat) (m1 : Mem α) (c1 : Cnt)
    (h : moveConstructFrom tt c m i = (none, m1, c1)) :
    m1 = m ∧ tt.nothrowMove = false := by
  unfold moveConstructFrom at h
  by_cases hth : tt.nothrowMove = false ∧ tt.ctorThrows c.ctor
  · simp [hth] at h
    exact ⟨h.1.symm, hth.1⟩
  · simp [hth] at h

theorem uninitializedMoveN_nothrow [Inhabited α] (tt : Traits α)
    (hm : tt.nothrowMove = true) (n : Nat) :
    ∀ (src : Mem α) (s0 : Nat) (dst : Mem α) (d0 : Nat) (c : Cnt),
      (uninitializedMoveN tt src s0 n dst d0 c).1 = false := by
  induction n with
  | zero => intro src s0 dst d0 c; rfl
  | succ n ih =>
    intro src s0 dst d0 c
    unfold uninitializedMoveN
    cases hmc : moveConstructFrom tt c src s0 with
    | mk o rest =>
      cases rest with
      | mk src1 c1 =>
        cases o with
        | none =>
          exact absurd (moveConstructFrom_err tt c src s0 src1 c1 hmc).2 (by simp [hm])
        | some x =>
          have h := ih src1 (s0 + 1) (dst.write d0 (some x)) (d0 + 1) c1
          cases hrec : uninitializedMoveN tt src1 (s0 + 1) n (dst.write d0 (some x)) (d0 + 1) c1 with
          | mk e rest2 =>
            cases rest2 with
            | mk s2 rest3 =>
              cases rest3 with
              | mk m c2 =>
                rw [hrec] at h
                simp only at h
                subst h
                simp [hrec]

theorem length_uninitializedMoveN_src [Inhabited α] (tt : Traits α) (n : Nat) :
    ∀ (src : Mem α) (s0 : Nat) (dst : Mem α) (d0 : Nat) (c : Cnt),
      ((uninitializedMoveN tt src s0 n dst d0 c).2.1).length = src.length := by
  induction n with
  | zero => intro src s0 dst d0 c; rfl
  | succ n ih =>
    intro src s0 dst d0 c
    unfold uninitializedMoveN
    cases hmc : moveConstructFrom tt c src s0 with
    | mk o rest =>
      cases rest with
      | mk src1 c1 =>
        cases o with
        | none =>
          obtain ⟨h1, _⟩ := moveConstructFrom_err tt c src s0 src1 c1 hmc
          simp [h1]
        | some x =>
          obtain ⟨_, h2, _⟩ := moveConstructFrom_ok tt c src s0 x src1 c1 hmc
          have h := ih src1 (s0 + 1) (dst.write d0 (some x)) (d0 + 1) c1
          cases hrec : uninitializedMoveN tt src1 (s0 + 1) n (dst.write d0 (some x)) (d0 + 1) c1 with
          | mk e rest2 =>
            cases rest2 with
            | mk s2 rest3 =>
              cases rest3 with
              | mk m c2 =>
                rw [hrec] at h
                simp only at h
                cases e <;> simp_all [Mem.length_write]

theorem length_uninitializedMoveN_dst [Inhabited α] (tt : Traits α) (n : Nat) :
    ∀ (src : Mem α) (s0 : Nat) (dst : Mem α) (d0 : Nat) (c : Cnt),
      ((uninitializedMoveN tt src s0 n dst d0 c).2.2.1).length = dst.length := by
  induction n with
  | zero => intro src s0 dst d0 c; rfl
  | succ n ih =>
    intro src s0 dst d0 c
    unfold uninitializedMoveN
    cases hmc : moveConstructFrom tt c src s0 with
    | mk o rest =>
      cases rest with
      | mk src1 c1 =>
        cases o with
        | none => rfl
        | some x =>
          have h := ih src1 (s0 + 1) (dst.write d0 (some x)) (d0 + 1) c1
          cases hrec : uninitializedMoveN tt src1 (s0 + 1) n (dst.write d0 (some x)) (d0 + 1) c1 with
          | mk e rest2 =>
            cases rest2 with
            | mk s2 rest3 =>
              cases rest3 with
              | mk m c2 =>
                rw [hrec] at h
                simp only at h
                cases e <;> simp_all [Mem.length_write]

theorem slot_uninitializedMoveN_src_outside [Inhabited α] (tt : Traits α) (n : Nat) :
    ∀ (src : Mem α) (s0 : Nat) (dst : Mem α) (d0 : Nat) (c : Cnt) (j : Nat),
      (j < s0 ∨ s0 + n ≤ j) →
      ((uninitializedMoveN tt src s0 n dst d0 c).2.1).slot j = src.slot j := by
  induction n with
  | zero => intro src s0 dst d0 c j _; rfl
  | succ n ih =>
    intro src s0 dst d0 c j hj
    unfold uninitializedMoveN
    cases hmc : moveConstructFrom tt c src s0 with
    | mk o rest =>
      cases rest with
      | mk src1 c1 =>
        cases o with
        | none =>
          obtain ⟨h1, _⟩ := moveConstructFrom_err tt c src s0 src1 c1 hmc
          simp [h1]
        | some x =>
          obtain ⟨_, h2, _⟩ := moveConstructFrom_ok tt c src s0 x src1 c1 hmc
          have h := ih src1 (s0 + 1) (dst.write d0 (some x)) (d0 + 1) c1 j (by omega)
          cases hrec : uninitializedMoveN tt src1 (s0 + 1) n (dst.write d0 (some x)) (d0 + 1) c1 with
          | mk e rest2 =>
            cases rest2 with
            | mk s2 rest3 =>
              cases rest3 with
              | mk m c2 =>
                rw [hrec] at h
                simp only at h
                have hsw : src1.slot j = src.slot j := by
                  rw [h2]; exact Mem.slot_write_ne _ _ _ _ (by omega)
                cases e <;> simp_all

theorem slot_uninitializedMoveN_dst_outside [Inhabited α] (tt : Traits α) (n : Nat) :
    ∀ (src : Mem α) (s0 : Nat) (dst : Mem α) (d0 : Nat) (c : Cnt) (j : Nat),
      (j < d0 ∨ d0 + n ≤ j) →
      ((uninitializedMoveN tt src s0 n dst d0 c).2.2.1).slot j = dst.slot j := by
  induction n with
  | zero => intro src s0 dst d0 c j _; rfl
  | succ n ih =>
    intro src s0 dst d0 c j hj
    have hjd : d0 ≠ j := by omega
    unfold uninitializedMoveN
    cases hmc : moveConstructFrom tt c src s0 with
    | mk o rest =>
      cases rest with
      | mk src1 c1 =>
        cases o with
        | none => rfl
        | some x =>
          have h := ih src1 (s0 + 1) (dst.write d0 (some x)) (d0 + 1) c1 j (by omega)
          cases hrec : uninitializedMoveN tt src1 (s0 + 1) n (dst.write d0 (some x)) (d0 + 1) c1 with
          | mk e rest2 =>
            cases rest2 with
            | mk s2 rest3 =>
              cases rest3 with
              | mk m c2 =>
                rw [hrec] at h
                simp only at h
                cases e <;>
                  simp_all [Mem.slot_write_ne _ _ _ _ hjd]

theorem slot_uninitializedMoveN_src_ok [Inhabited α] (tt : Traits α) (n : Nat) :
    ∀ (src : Mem α) (s0 : Nat) (dst : Mem α) (d0 : Nat) (c : Cnt),
      s0 + n ≤ src.length →
      (uninitializedMoveN tt src s0 n dst d0 c).1 = false →
      ∀ i, i < n →
        ((uninitializedMoveN tt src s0 n dst d0 c).2.1).slot (s0 + i) =
          some (tt.moved ((src.slot (s0 + i)).getD default)) := by
  induction n with
  | zero => intro src s0 dst d0 c _ _ i hi; omega
  | succ n ih =>
    intro src s0 dst d0 c hlen hok i hi
    unfold uninitializedMoveN at hok ⊢
    cases hmc : moveConstructFrom tt c src s0 with
    | mk o rest =>
      cases rest with
      | mk src1 c1 =>
        cases o with
        | none => rw [hmc] at hok; simp at hok
        | some x =>
          obtain ⟨hx, h2, _⟩ := moveConstructFrom_ok tt c src s0 x src1 c1 hmc
          cases hrec : uninitializedMoveN tt src1 (s0 + 1) n (dst.write d0 (some x)) (d0 + 1) c1 with
          | mk e rest2 =>
            cases rest2 with
            | mk s2 rest3 =>
              cases rest3 with
              | mk m c2 =>
                simp only [hmc, hrec] at hok
                cases e with
                | true => simp at hok
                | false =>
                  simp only [hmc, hrec]
                  rcases Nat.eq_zero_or_pos i with hi0 | hip
                  · subst hi0
                    have hout := slot_uninitializedMoveN_src_outside tt n src1 (s0 + 1)
                      (dst.write d0 (some x)) (d0 + 1) c1 s0 (by omega)
                    rw [hrec] at hout
                    simp only at hout
                    rw [Nat.add_zero, hout, h2, Mem.slot_write_self _ _ _ (by omega), hx]
                  · obtain ⟨i, rfl⟩ : ∃ j, i = j + 1 := ⟨i - 1, by omega⟩
                    have hsw : src1.slot (s0 + 1 + i) = src.slot (s0 + 1 + i) := by
                      rw [h2]; exact Mem.slot_write_ne _ _ _ _ (by omega)
                    have hin := ih src1 (s0 + 1) (dst.write d0 (some x)) (d0 + 1) c1
                      (by rw [h2, Mem.length_write]; omega) (by rw [hrec]) i (by omega)
                    rw [hrec] at hin
                    simp only at hin
                    rw [hsw] at hin
                    have e1 : s0 + 1 + i = s0 + (i + 1) := by omega
                    rw [e1] at hin
                    exact hin

theorem slot_uninitializedMoveN_dst_ok [Inhabited α] (tt : Traits α) (n : Nat) :
    ∀ (src : Mem α) (s0 : Nat) (dst : Mem α) (d0 : Nat) (c : Cnt),
      d0 + n ≤ dst.length →
      (uninitializedMoveN tt src s0 n dst d0 c).1 = false →
      ∀ i, i < n →
        ((uninitializedMoveN tt src s0 n dst d0 c).2.2.1).slot (d0 + i) =
          some ((src.slot (s0 + i)).getD default) := by
  induction n with
  | zero => intro src s0 dst d0 c _ _ i hi; omega
  | succ n ih =>
    intro src s0 dst d0 c hlen hok i hi
    unfold uninitializedMoveN at hok ⊢
    cases hmc : moveConstructFrom tt c src s0 with
    | mk o rest =>
      cases rest with
      | mk src1 c1 =>
        cases o with
        | none => rw [hmc] at hok; simp at hok
        | some x =>
          obtain ⟨hx, h2, _⟩ := moveConstructFrom_ok tt c src s0 x src1 c1 hmc
          cases hrec : uninitializedMoveN tt src1 (s0 + 1) n (dst.write d0 (some x)) (d0 + 1) c1 with
          | mk e rest2 =>
            cases rest2 with
            | mk s2 rest3 =>
              cases rest3 with
              | mk m c2 =>
                simp only [hmc, hrec] at hok
                cases e with
                | true => simp at hok
                | false =>
                  simp only [hmc, hrec]
                  rcases Nat.eq_zero_or_pos i with hi0 | hip
                  · subst hi0
                    have hout := slot_uninitializedMoveN_dst_outside tt n src1 (s0 + 1)
                      (dst.write d0 (some x)) (d0 + 1) c1 d0 (by omega)
                    rw [hrec] at hout
                    simp only at hout
                    rw [Nat.add_zero, hout, Mem.slot_write_self _ _ _ (by omega), hx]
                    simp
                  · obtain ⟨i, rfl⟩ : ∃ j, i = j + 1 := ⟨i - 1, by omega⟩
                    have hsw : src1.slot (s0 + 1 + i) = src.slot (s0 + 1 + i) := by
                      rw [h2]; exact Mem.slot_write_ne _ _ _ _ (by omega)
                    have hin := ih src1 (s0 + 1) (dst.write d0 (some x)) (d0 + 1) c1
                      (by rw [Mem.length_write]; omega) (by rw [hrec]) i (by omega)
                    rw [hrec] at hin
                    simp only at hin
                    rw [hsw] at hin
                    have e1 : s0 + 1 + i = s0 + (i + 1) := by omega
                    have e2 : d0 + 1 + i = d0 + (i + 1) := by omega
                    rw [e1, e2] at hin
                    exact hin

theorem slot_uninitializedMoveN_src_isSome [Inhabited α] (tt : Traits α) (n : Nat) :
    ∀ (src : Mem α) (s0 : Nat) (dst : Mem α) (d0 : Nat) (c : Cnt) (j : Nat),
      (src.slot j).isSome = true →
      (((uninitializedMoveN tt src s0 n dst d0 c).2.1).slot j).isSome = true := by
  induction n with
  | zero => intro src s0 dst d0 c j h; exact h
  | succ n ih =>
    intro src s0 dst d0 c j h
    unfold uninitializedMoveN
    cases hmc : moveConstructFrom tt c src s0 with
    | mk o rest =>
      cases rest with
      | mk src1 c1 =>
        cases o with
        | none =>
          obtain ⟨h1, _⟩ := moveConstructFrom_err tt c src s0 src1 c1 hmc
          simp [h1, h]
        | some x =>
          obtain ⟨_, h2, _⟩ := moveConstructFrom_ok tt c src s0 x src1 c1 hmc
          have hsome1 : (src1.slot j).isSome = true := by
            by_cases hj : s0 = j
            · subst hj
              have hlt : s0 < src.length := by
                by_contra hge
                rw [Mem.slot_oob src s0 (by omega)] at h
                simp at h
              rw [h2, Mem.slot_write_self _ _ _ hlt]
              rfl
            · rw [h2, Mem.slot_write_ne _ _ _ _ hj]
              exact h
          have hrec2 := ih src1 (s0 + 1) (dst.write d0 (some x)) (d0 + 1) c1 j hsome1
          cases hrec : uninitializedMoveN tt src1 (s0 + 1) n (dst.write d0 (some x)) (d0 + 1) c1 with
          | mk e rest2 =>
            cases rest2 with
            | mk s2 rest3 =>
              cases rest3 with
              | mk m c2 =>
                rw [hrec] at hrec2
                simp only at hrec2
                cases e <;> simp_all

theorem Reallocate_copy_src [Inhabited α] (tt : Traits α) (src : Mem α)
    (s0 n : Nat) (dst : Mem α) (d0 : Nat) (c : Cnt)
    (h1 : tt.nothrowMove = false) (h2 : tt.copyConstructible = true) :
    (Reallocate tt src s0 n dst d0 c).2.1 = src := by
  unfold Reallocate
  rw [h1, h2]
  cases hcc : uninitializedCopyN tt src s0 n dst d0 c with
  | mk e rest =>
    cases rest with
    | mk m c1 => simp

theorem Reallocate_nothrow [Inhabited α] (tt : Traits α) (src : Mem α)
    (s0 n : Nat) (dst : Mem α) (d0 : Nat) (c : Cnt)
    (h : tt.nothrowMove = true) :
    (Reallocate tt src s0 n dst d0 c).1 = false := by
  unfold Reallocate
  rw [h]
  simpa using uninitializedMoveN_nothrow tt h n src s0 dst d0 c

theorem Reallocate_strong [Inhabited α] (tt : Traits α) (src : Mem α)
    (s0 n : Nat) (dst : Mem α) (d0 : Nat) (c : Cnt)
    (h : tt.copyConstructible = true ∨ tt.nothrowMove = true)
    (ht : (Reallocate tt src s0 n dst d0 c).1 = true) :
    (Reallocate tt src s0 n dst d0 c).2.1 = src := by
  cases hm : tt.nothrowMove with
  | true => rw [Reallocate_nothrow tt src s0 n dst d0 c hm] at ht; cases ht
  | false =>
    have hcp : tt.copyConstructible = true := by
      cases h with
      | inl h => exact h
      | inr h => rw [h] at hm; cases hm
    exact Reallocate_copy_src tt src s0 n dst d0 c hm hcp

theorem length_Reallocate_src [Inhabited α] (tt : Traits α) (src : Mem α)
    (s0 n : Nat) (dst : Mem α) (d0 : Nat) (c : Cnt) :
    ((Reallocate tt src s0 n dst d0 c).2.1).length = src.length := by
  unfold Reallocate
  by_cases hc : (tt.nothrowMove || !tt.copyConstructible) = true
  · rw [if_pos hc]
    exact length_uninitializedMoveN_src tt n src s0 dst d0 c
  · rw [if_neg hc]

theorem length_Reallocate_dst [Inhabited α] (tt : Traits α) (src : Mem α)
    (s0 n : Nat) (dst : Mem α) (d0 : Nat) (c : Cnt) :
    ((Reallocate tt src s0 n dst d0 c).2.2.1).length = dst.length := by
  unfold Reallocate
  by_cases hc : (tt.nothrowMove || !tt.copyConstructible) = true
  · rw [if_pos hc]
    exact length_uninitializedMoveN_dst tt n src s0 dst d0 c
  · rw [if_neg hc]
    have h := length_uninitializedCopyN tt n src s0 dst d0 c
    cases hcc : uninitializedCopyN tt src s0 n dst d0 c with
    | mk e rest =>
      cases rest with
      | mk m c1 =>
        rw [hcc] at h
        simpa using h

theorem slot_Reallocate_dst_outside [Inhabited α] (tt : Traits α) (src : Mem α)
    (s0 n : Nat) (dst : Mem α) (d0 : Nat) (c : Cnt) (j : Nat)
    (hj : j < d0 ∨ d0 + n ≤ j) :
    ((Reallocate tt src s0 n dst d0 c).2.2.1).slot j = dst.slot j := by
  unfold Reallocate
  by_cases hc : (tt.nothrowMove || !tt.copyConstructible) = true
  · rw [if_pos hc]
    exact slot_uninitializedMoveN_dst_outside tt n src s0 dst d0 c j hj
  · rw [if_neg hc]
    have h := slot_uninitializedCopyN_outside tt n src s0 dst d0 c j hj
    cases hcc : uninitializedCopyN tt src s0 n dst d0 c with
    | mk e rest =>
      cases rest with
      | mk m c1 =>
        rw [hcc] at h
        simpa using h

theorem slot_Reallocate_dst_ok [Inhabited α] (tt : Traits α) (src : Mem α)
    (s0 n : Nat) (dst : Mem α) (d0 : Nat) (c : Cnt)
    (hlen : d0 + n ≤ dst.length)
    (hok : (Reallocate tt src s0 n dst d0 c).1 = false) :
    ∀ i, i < n →
      ((Reallocate tt src s0 n dst d0 c).2.2.1).slot (d0 + i) =
        some ((src.slot (s0 + i)).getD default) := by
  unfold Reallocate at hok ⊢
  by_cases hc : (tt.nothrowMove || !tt.copyConstructible) = true
  · rw [if_pos hc] at hok ⊢
    exact slot_uninitializedMoveN_dst_ok tt n src s0 dst d0 c hlen hok
  · rw [if_neg hc] at hok ⊢
    intro i hi
    have h := slot_uninitializedCopyN_ok tt n src s0 dst d0 c hlen
    cases hcc : uninitializedCopyN tt src s0 n dst d0 c with
    | mk e rest =>
      cases rest with
      | mk m c1 =>
        rw [hcc] at h hok
        simp only [hcc]
        simp only at hok
        exact h (by simpa using hok) i hi

theorem slot_Reallocate_src_outside [Inhabited α] (tt : Traits α) (src : Mem α)
    (s0 n : Nat) (dst : Mem α) (d0 : Nat) (c : Cnt) (j : Nat)
    (hj : j < s0 ∨ s0 + n ≤ j) :
    ((Reallocate tt src s0 n dst d0 c).2.1).slot j = src.slot j := by
  unfold Reallocate
  by_cases hc : (tt.nothrowMove || !tt.copyConstructible) = true
  · rw [if_pos hc]
    exact slot_uninitializedMoveN_src_outside tt n src s0 dst d0 c j hj
  · rw [if_neg hc]

theorem slot_Reallocate_src_isSome [Inhabited α] (tt : Traits α) (src : Mem α)
    (s0 n : Nat) (dst : Mem α) (d0 : Nat) (c : Cnt) (j : Nat)
    (h : (src.slot j).isSome = true) :
    (((Reallocate tt src s0 n dst d0 c).2.1).slot j).isSome = true := by
  unfold Reallocate
  by_cases hc : (tt.nothrowMove || !tt.copyConstructible) = true
  · rw [if_pos hc]
    exact slot_uninitializedMoveN_src_isSome tt n src s0 dst d0 c j h
  · rw [if_neg hc]
    cases hcc : uninitializedCopyN tt src s0 n dst d0 c with
    | mk e rest =>
      cases rest with
      | mk m c1 => simpa using h

theorem slot_Reallocate_src_move_ok [Inhabited α] (tt : Traits α) (src : Mem α)
    (s0 n : Nat) (dst : Mem α) (d0 : Nat) (c : Cnt)
    (hc : (tt.nothrowMove || !tt.copyConstructible) = true)
    (hlen : s0 + n ≤ src.length)
    (hok : (Reallocate tt src s0 n dst d0 c).1 = false) :
    ∀ i, i < n →
      ((Reallocate tt src s0 n dst d0 c).2.1).slot (s0 + i) =
        some (tt.moved ((src.slot (s0 + i)).getD default)) := by
  unfold Reallocate at hok ⊢
  rw [if_pos hc] at hok ⊢
  exact slot_uninitializedMoveN_src_ok tt n src s0 dst d0 c hlen hok

theorem length_moveAssignSlot (tt : Traits α) (m : Mem α) (s d : Nat) :
    (moveAssignSlot tt m s d).length = m.length := by
  unfold moveAssignSlot
  cases m.slot s <;> simp [Mem.length_write]

theorem slot_moveAssignSlot_dst (tt : Traits α) (m : Mem α) (s d : Nat) (x : α)
    (hs : m.slot s = some x) (hd : d < m.length) :
    (moveAssignSlot tt m s d).slot d = some x := by
  unfold moveAssignSlot
  rw [hs]
  exact Mem.slot_write_self _ _ _ (by rw [Mem.length_write]; exact hd)

theorem slot_moveAssignSlot_other (tt : Traits α) (m : Mem α) (s d j : Nat)
    (hjs : s ≠ j) (hjd : d ≠ j) :
    (moveAssignSlot tt m s d).slot j = m.slot j := by
  unfold moveAssignSlot
  cases hs : m.slot s
  · rfl
  · rw [Mem.slot_write_ne _ _ _ _ hjd, Mem.slot_write_ne _ _ _ _ hjs]

theorem slot_moveAssignSlot_isSome (tt : Traits α) (m : Mem α) (s d j : Nat)
    (h : (m.slot j).isSome = true) :
    ((moveAssignSlot tt m s d).slot j).isSome = true := by
  have hjlen : j < m.length := by
    by_contra hge
    rw [Mem.slot_oob m j (by omega)] at h
    simp at h
  unfold moveAssignSlot
  cases hs : m.slot s with
  | none => exact h
  | some x =>
    by_cases hjd : d = j
    · subst hjd
      rw [Mem.slot_write_self _ _ _ (by rw [Mem.length_write]; exact hjlen)]
      rfl
    · rw [Mem.slot_write_ne _ _ _ _ hjd]
      by_cases hjs : s = j
      · subst hjs
        rw [Mem.slot_write_self _ _ _ hjlen]
        rfl
      · rw [Mem.slot_write_ne _ _ _ _ hjs]
        exact h

theorem length_moveBackwardShift (tt : Traits α) (k : Nat) :
    ∀ (m : Mem α) (first : Nat), (moveBackwardShift tt m first k).length = m.length := by
  induction k with
  | zero => intro m first; rfl
  | succ k ih =>
    intro m first
    unfold moveBackwardShift
    rw [ih, length_moveAssignSlot]

theorem slot_moveBackwardShift_outside (tt : Traits α) (k : Nat) :
    ∀ (m : Mem α) (first : Nat) (j : Nat), (j < first ∨ first + k < j) →
      (moveBackwardShift tt m first k).slot j = m.slot j := by
  induction k with
  | zero => intro m first j _; rfl
  | succ k ih =>
    intro m first j hj
    unfold moveBackwardShift
    rw [ih _ _ _ (by omega), slot_moveAssignSlot_other _ _ _ _ _ (by omega) (by omega)]

theorem slot_moveBackwardShift_isSome (tt : Traits α) (k : Nat) :
    ∀ (m : Mem α) (first : Nat) (j : Nat), (m.slot j).isSome = true →
      ((moveBackwardShift tt m first k).slot j).isSome = true := by
  induction k with
  | zero => intro m first j h; exact h
  | succ k ih =>
    intro m first j h
    unfold moveBackwardShift
    exact ih _ _ _ (slot_moveAssignSlot_isSome tt m _ _ j h)

theorem slot_moveBackwardShift_shifted (tt : Traits α) (k : Nat) :
    ∀ (m : Mem α) (first : Nat),
      (∀ j, j < k → (m.slot (first + j)).isSome = true) →
      first + k < m.length →
      ∀ i, i < k →
        (moveBackwardShift tt m first k).slot (first + i + 1) = m.slot (first + i) := by
  induction k with
  | zero => intro m first _ _ i hi; omega
  | succ k ih =>
    intro m first hlive hlen i hi
    unfold moveBackwardShift
    obtain ⟨x, hx⟩ := Option.isSome_iff_exists.mp (hlive k (by omega))
    rcases Nat.lt_or_ge i k with hik | hik
    · have hmas : (moveAssignSlot tt m (first + k) (first + k + 1)).slot (first + i) =
          m.slot (first + i) :=
        slot_moveAssignSlot_other _ _ _ _ _ (by omega) (by omega)
      have hlive2 : ∀ j, j < k →
          ((moveAssignSlot tt m (first + k) (first + k + 1)).slot (first + j)).isSome = true := by
        intro j hj
        rw [slot_moveAssignSlot_other _ _ _ _ _ (by omega) (by omega)]
        exact hlive j (by omega)
      have := ih (moveAssignSlot tt m (first + k) (first + k + 1)) first hlive2
        (by rw [length_moveAssignSlot]; omega) i hik
      rw [this, hmas]
    · have hik2 : i = k := by omega
      rw [hik2]
      rw [slot_moveBackwardShift_outside tt k _ first (first + k + 1) (by omega)]
      rw [slot_moveAssignSlot_dst tt m (first + k) (first + k + 1) x hx (by omega), hx]

theorem length_moveShiftLeft (tt : Traits α) (k : Nat) :
    ∀ (m : Mem α) (dst : Nat), (moveShiftLeft tt m dst k).length = m.length := by
  induction k with
  | zero => intro m dst; rfl
  | succ k ih =>
    intro m dst
    unfold moveShiftLeft
    rw [ih, length_moveAssignSlot]

theorem slot_moveShiftLeft_outside (tt : Traits α) (k : Nat) :
    ∀ (m : Mem α) (dst : Nat) (j : Nat), (j < dst ∨ dst + k < j) →
      (moveShiftLeft tt m dst k).slot j = m.slot j := by
  induction k with
  | zero => intro m dst j _; rfl
  | succ k ih =>
    intro m dst j hj
    unfold moveShiftLeft
    rw [ih _ _ _ (by omega), slot_moveAssignSlot_other _ _ _ _ _ (by omega) (by omega)]

theorem slot_moveShiftLeft_isSome (tt : Traits α) (k : Nat) :
    ∀ (m : Mem α) (dst : Nat) (j : Nat), (m.slot j).isSome = true →
      ((moveShiftLeft tt m dst k).slot j).isSome = true := by
  induction k with
  | zero => intro m dst j h; exact h
  | succ k ih =>
    intro m dst j h
    unfold moveShiftLeft
    exact ih _ _ _ (slot_moveAssignSlot_isSome tt m _ _ j h)

theorem slot_moveShiftLeft_shifted (tt : Traits α) (k : Nat) :
    ∀ (m : Mem α) (dst : Nat),
      (∀ j, j < k → (m.slot (dst + 1 + j)).isSome = true) →
      dst + k < m.length →
      ∀ i, i < k →
        (moveShiftLeft tt m dst k).slot (dst + i) = m.slot (dst + 1 + i) := by
  induction k with
  | zero => intro m dst _ _ i hi; omega
  | succ k ih =>
    intro m dst hlive hlen i hi
    unfold moveShiftLeft
    obtain ⟨x, hx⟩ := Option.isSome_iff_exists.mp (hlive 0 (by omega))
    rcases Nat.eq_zero_or_pos i with hi0 | hip
    · subst hi0
      simp only [Nat.add_zero]
      rw [slot_moveShiftLeft_outside tt k _ (dst + 1) dst (by omega)]
      have hx2 : m.slot (dst + 1) = some x := by simpa using hx
      rw [slot_moveAssignSlot_dst tt m (dst + 1) dst x hx2 (by omega), hx2]
    · obtain ⟨i, rfl⟩ : ∃ j, i = j + 1 := ⟨i - 1, by omega⟩
      have hlive2 : ∀ j, j < k →
          ((moveAssignSlot tt m (dst + 1) dst).slot (dst + 1 + 1 + j)).isSome = true := by
        intro j hj
        rw [slot_moveAssignSlot_other _ _ _ _ _ (by omega) (by omega)]
        have e1 : dst + 1 + 1 + j = dst + 1 + (j + 1) := by omega
        rw [e1]
        exact hlive (j + 1) (by omega)
      have hrec := ih (moveAssignSlot tt m (dst + 1) dst) (dst + 1) hlive2
        (by rw [length_moveAssignSlot]; omega) i (by omega)
      have e1 : dst + 1 + i = dst + (i + 1) := by omega
      rw [e1] at hrec
      rw [hrec]
      rw [slot_moveAssignSlot_other _ _ _ _ _ (by omega) (by omega)]
      have e2 : dst + 1 + 1 + i = dst + 1 + (i + 1) := by omega
      rw [e2]

theorem Allocate_ok (tt : Traits α) (c : Cnt) (n : Nat) (m : Mem α) (c1 : Cnt)
    (h : Allocate tt c n = (some m, c1)) :
    m.length = n ∧ ∀ j, m.slot j = none := by
  unfold Allocate at h
  by_cases h0 : n = 0
  · simp [h0] at h
    obtain ⟨h1, _⟩ := h
    subst h1
    subst h0
    exact ⟨rfl, fun j => rfl⟩
  · by_cases ha : tt.allocThrows c.alloc
    · simp [h0, ha] at h
    · simp [h0, ha] at h
      obtain ⟨h1, _⟩ := h
      subst h1
      refine ⟨by simp, fun j => ?_⟩
      by_cases hj : j < n
      · simp [Mem.slot, List.getElem?_replicate, hj]
      · exact Mem.slot_oob _ _ (by simp; omega)

theorem construct_ok (tt : Traits α) (c : Cnt) (v x : α) (c1 : Cnt)
    (h : construct tt c v = (some x, c1)) :
    x = v ∧ c1 = c.bumpCtor := by
  unfold construct at h
  by_cases hth : tt.ctorThrows c.ctor
  · simp [hth] at h
  · simp [hth] at h
    exact ⟨h.1.symm, h.2.symm⟩

theorem construct_throws (tt : Traits α) (c : Cnt) (v : α)
    (h : tt.ctorThrows c.ctor = true) :
    construct tt c v = (none, c.bumpCtor) := by
  unfold construct
  rw [if_pos h]

theorem slot_eq_some_getD [Inhabited α] {m : Mem α} {j : Nat}
    (h : (m.slot j).isSome = true) :
    m.slot j = some ((m.slot j).getD default) := by
  cases hm : m.slot j
  · rw [hm] at h; cases h
  · rfl

theorem contents_length [Inhabited α] (v : Vector α) :
    v.contents.length = v.size := by
  simp [Vector.contents]

theorem contents_getElem [Inhabited α] (v : Vector α) (i : Nat) (h1 : i < v.size)
    (h2 : i < v.contents.length) :
    v.contents[i] = (v.data.slot i).getD default := by
  simp [Vector.contents]

theorem EmplaceBack_thrown [Inhabited α] (tt : Traits α) (c : Cnt) (v : Vector α)
    (mk : Mem α → α) (h : (EmplaceBack tt c v mk).thrown = true) :
    (EmplaceBack tt c v mk).vec.size = v.size ∧
    (EmplaceBack tt c v mk).vec.Capacity = v.Capacity ∧
    (∀ j, (v.data.slot j).isSome = true →
      (((EmplaceBack tt c v mk).vec.data).slot j).isSome = true) ∧
    ((tt.copyConstructible = true ∨ tt.nothrowMove = true) →
      (EmplaceBack tt c v mk).vec = v) := by
  unfold EmplaceBack at h ⊢
  by_cases hfull : v.size = v.Capacity
  · rw [if_pos hfull] at h ⊢
    cases hal : Allocate tt c (if v.size = 0 then 1 else v.size * 2) with
    | mk oa c1 =>
      cases oa with
      | none => simp [hal]
      | some nd =>
        cases hcon : construct tt c1 (mk v.data) with
        | mk ox c2 =>
          cases ox with
          | none => simp [hal, hcon]
          | some xv =>
            cases hre : Reallocate tt v.data 0 v.size (nd.write v.size (some xv)) 0 c2 with
            | mk e rest =>
              cases rest with
              | mk s2 rest2 =>
                cases rest2 with
                | mk d2 c3 =>
                  simp only [hal, hcon, hre] at h ⊢
                  cases e with
                  | false => simp at h
                  | true =>
                    have hsrc := length_Reallocate_src tt v.data 0 v.size
                      (nd.write v.size (some xv)) 0 c2
                    have hliv := fun j hj => slot_Reallocate_src_isSome tt v.data 0 v.size
                      (nd.write v.size (some xv)) 0 c2 j hj
                    rw [hre] at hsrc hliv
                    simp only at hsrc hliv
                    refine ⟨rfl, hsrc, hliv, ?_⟩
                    intro hcm
                    have := Reallocate_strong tt v.data 0 v.size
                      (nd.write v.size (some xv)) 0 c2 hcm (by rw [hre])
                    rw [hre] at this
                    simp only at this
                    rw [this]
  · rw [if_neg hfull] at h ⊢
    cases hcon : construct tt c (mk v.data) with
    | mk ox c1 =>
      cases ox with
      | none => simp [hcon]
      | some xv => simp [hcon] at h

theorem EmplaceBack_ok [Inhabited α] (tt : Traits α) (c : Cnt) (v : Vector α)
    (mk : Mem α → α) (hInv : Inv v)
    (hok : (EmplaceBack tt c v mk).thrown = false) :
    (EmplaceBack tt c v mk).vec.size = v.size + 1 ∧
    (∀ j, j < v.size → ((EmplaceBack tt c v mk).vec.data).slot j =
      some ((v.data.slot j).getD default)) ∧
    ((EmplaceBack tt c v mk).vec.data).slot v.size = some (mk v.data) ∧
    (v.size = v.Capacity →
      (EmplaceBack tt c v mk).vec.Capacity = if v.size = 0 then 1 else v.size * 2) ∧
    (v.size < v.Capacity → (EmplaceBack tt c v mk).vec.Capacity = v.Capacity) ∧
    v.size + 1 ≤ (EmplaceBack tt c v mk).vec.Capacity := by
  obtain ⟨hsz, hliv⟩ := hInv
  unfold EmplaceBack at hok ⊢
  by_cases hfull : v.size = v.Capacity
  · rw [if_pos hfull] at hok ⊢
    cases hal : Allocate tt c (if v.size = 0 then 1 else v.size * 2) with
    | mk oa c1 =>
      cases oa with
      | none => simp [hal] at hok
      | some nd =>
        obtain ⟨hndlen, hndslot⟩ := Allocate_ok tt c _ nd c1 hal
        have hcap : (if v.size = 0 then 1 else v.size * 2) = nd.length := hndlen.symm
        have hlt : v.size < nd.length := by
          rw [hndlen]
          by_cases h0 : v.size = 0 <;> simp [h0] <;> omega
        cases hcon : construct tt c1 (mk v.data) with
        | mk ox c2 =>
          cases ox with
          | none => simp [hal, hcon] at hok
          | some xv =>
            obtain ⟨hxv, _⟩ := construct_ok tt c1 (mk v.data) xv c2 hcon
            cases hre : Reallocate tt v.data 0 v.size (nd.write v.size (some xv)) 0 c2 with
            | mk e rest =>
              cases rest with
              | mk s2 rest2 =>
                cases rest2 with
                | mk d2 c3 =>
                  simp only [hal, hcon, hre] at hok ⊢
                  cases e with
                  | true => simp at hok
                  | false =>
                    have hdl := length_Reallocate_dst tt v.data 0 v.size
                      (nd.write v.size (some xv)) 0 c2
                    rw [hre] at hdl
                    simp only at hdl
                    rw [Mem.length_write] at hdl
                    have hdok := slot_Reallocate_dst_ok tt v.data 0 v.size
                      (nd.write v.size (some xv)) 0 c2
                      (by rw [Mem.length_write]; omega) (by rw [hre])
                    rw [hre] at hdok
                    simp only at hdok
                    have hdout := slot_Reallocate_dst_outside tt v.data 0 v.size
                      (nd.write v.size (some xv)) 0 c2 v.size (by omega)
                    rw [hre] at hdout
                    simp only at hdout
                    refine ⟨by trivial, ?_, ?_, ?_, ?_, ?_⟩
                    · intro j hj
                      have := hdok j hj
                      simpa using this
                    · rw [hdout, Mem.slot_write_self _ _ _ hlt, hxv]
                    · intro _
                      simp [Vector.Capacity, hdl, hndlen]
                    · intro hlt2
                      rw [hfull] at hlt2
                      exact absurd hlt2 (Nat.lt_irrefl _)
                    · simp [Vector.Capacity, hdl]
                      omega
  · rw [if_neg hfull] at hok ⊢
    have hltc : v.size < v.Capacity := by omega
    cases hcon : construct tt c (mk v.data) with
    | mk ox c1 =>
      cases ox with
      | none => simp [hcon] at hok
      | some xv =>
        obtain ⟨hxv, _⟩ := construct_ok tt c (mk v.data) xv c1 hcon
        simp only [hcon]
        refine ⟨by trivial, ?_, ?_, ?_, ?_, ?_⟩
        · intro j hj
          rw [Mem.slot_write_ne _ _ _ _ (by omega)]
          exact slot_eq_some_getD (hliv j hj)
        · rw [Mem.slot_write_self _ _ _ hltc, hxv]
        · intro heq
          exact absurd heq hfull
        · intro _
          simp [Vector.Capacity, Mem.length_write]
        · have hltc2 : v.size < v.data.length := hltc
          simp [Vector.Capacity, Mem.length_write]
          omega

theorem Inv_EmplaceBack [Inhabited α] (tt : Traits α) (c : Cnt) (v : Vector α)
    (mk : Mem α → α) (hInv : Inv v) : Inv (EmplaceBack tt c v mk).vec := by
  cases he : (EmplaceBack tt c v mk).thrown with
  | false =>
    obtain ⟨h1, h2, h3, _, _, h6⟩ := EmplaceBack_ok tt c v mk hInv he
    constructor
    · rw [h1]; exact h6
    · intro i hi
      rw [h1] at hi
      rcases Nat.lt_or_ge i v.size with hlt | hge
      · rw [h2 i hlt]; rfl
      · have hieq : i = v.size := by omega
        rw [hieq, h3]; rfl
  | true =>
    obtain ⟨h1, h2, h3, _⟩ := EmplaceBack_thrown tt c v mk he
    constructor
    · rw [h1, h2]; exact hInv.1
    · intro i hi
      rw [h1] at hi
      exact h3 i (hInv.2 i hi)

theorem EmplaceBack_ok_contents [Inhabited α] (tt : Traits α) (c : Cnt)
    (v : Vector α) (mk : Mem α → α) (hInv : Inv v)
    (hok : (EmplaceBack tt c v mk).thrown = false) :
    (EmplaceBack tt c v mk).vec.contents = v.contents ++ [mk v.data] := by
  obtain ⟨h1, h2, h3, _, _, _⟩ := EmplaceBack_ok tt c v mk hInv hok
  unfold Vector.contents
  rw [h1, List.range_succ, List.map_append]
  congr 1
  · apply List.map_congr_left
    intro i hi
    have hilt : i < v.size := List.mem_range.mp hi
    rw [h2 i hilt]
    cases hs : v.data.slot i <;> simp
  · simp [h3]

theorem Emplace_ok [Inhabited α] (tt : Traits α) (c : Cnt) (v : Vector α)
    (dist : Nat) (mk : Mem α → α) (hInv : Inv v) (hdist : dist ≤ v.size)
    (hok : (Emplace tt c v dist mk).thrown = false) :
    (Emplace tt c v dist mk).vec.size = v.size + 1 ∧
    (∀ j, j < dist → ((Emplace tt c v dist mk).vec.data).slot j =
      some ((v.data.slot j).getD default)) ∧
    ((Emplace tt c v dist mk).vec.data).slot dist = some (mk v.data) ∧
    (∀ j, dist < j → j ≤ v.size → ((Emplace tt c v dist mk).vec.data).slot j =
      some ((v.data.slot (j - 1)).getD default)) ∧
    v.size + 1 ≤ (Emplace tt c v dist mk).vec.Capacity := by
  obtain ⟨hsz, hliv⟩ := hInv
  have hszL : v.size ≤ v.data.length := hsz
  unfold Emplace at hok ⊢
  by_cases hend : v.size = dist
  · rw [if_pos hend] at hok ⊢
    obtain ⟨h1, h2, h3, _, _, h6⟩ := EmplaceBack_ok tt c v mk ⟨hsz, hliv⟩ hok
    refine ⟨h1, ?_, ?_, ?_, h6⟩
    · intro j hj
      exact h2 j (by omega)
    · rw [← hend]
      exact h3
    · intro j hj1 hj2
      omega
  · rw [if_neg hend] at hok ⊢
    have hd : dist < v.size := by omega
    by_cases hsp : v.size < v.Capacity
    · rw [if_pos hsp] at hok ⊢
      have hspL : v.size < v.data.length := hsp
      cases hcon : construct tt c (mk v.data) with
      | mk ot c1 =>
        cases ot with
        | none => simp [hcon] at hok
        | some temp =>
          obtain ⟨htemp, _⟩ := construct_ok tt c (mk v.data) temp c1 hcon
          cases hmv : moveConstructFrom tt c1 v.data (v.size - 1) with
          | mk ol rest =>
            cases rest with
            | mk m1 c2 =>
              cases ol with
              | none => simp [hcon, hmv] at hok
              | some last =>
                obtain ⟨hlast, hm1, _⟩ :=
                  moveConstructFrom_ok tt c1 v.data (v.size - 1) last m1 c2 hmv
                simp only [hcon, hmv] at hok ⊢
                have hm2len : (m1.write v.size (some last)).length = v.data.length := by
                  rw [Mem.length_write, hm1, Mem.length_write]
                have hm2live : ∀ jj, jj < v.size - 1 - dist →
                    ((m1.write v.size (some last)).slot (dist + jj)).isSome = true := by
                  intro jj hjj
                  rw [Mem.slot_write_ne _ _ _ _ (by omega)]
                  rw [hm1, Mem.slot_write_ne _ _ _ _ (by omega)]
                  exact hliv _ (by omega)
                refine ⟨by trivial, ?_, ?_, ?_, ?_⟩
                · intro j hj
                  rw [Mem.slot_write_ne _ _ _ _ (by omega)]
                  rw [slot_moveBackwardShift_outside tt _ _ dist j (by omega)]
                  rw [Mem.slot_write_ne _ _ _ _ (by omega)]
                  rw [hm1, Mem.slot_write_ne _ _ _ _ (by omega)]
                  exact slot_eq_some_getD (hliv j (by omega))
                · rw [Mem.slot_write_self _ _ _
                    (by rw [length_moveBackwardShift, hm2len]; omega), htemp]
                · intro j hj1 hj2
                  rw [Mem.slot_write_ne _ _ _ _ (by omega)]
                  rcases Nat.lt_or_ge j v.size with hjlt | hjge
                  · have hsh := slot_moveBackwardShift_shifted tt (v.size - 1 - dist)
                      (m1.write v.size (some last)) dist hm2live
                      (by rw [hm2len]; omega) (j - dist - 1) (by omega)
                    have ej : dist + (j - dist - 1) + 1 = j := by omega
                    rw [ej] at hsh
                    rw [hsh]
                    rw [Mem.slot_write_ne _ _ _ _ (by omega)]
                    rw [hm1, Mem.slot_write_ne _ _ _ _ (by omega)]
                    have ej2 : dist + (j - dist - 1) = j - 1 := by omega
                    rw [ej2]
                    exact slot_eq_some_getD (hliv (j - 1) (by omega))
                  · have hje : j = v.size := by omega
                    rw [hje]
                    rw [slot_moveBackwardShift_outside tt _ _ dist v.size (by omega)]
                    rw [Mem.slot_write_self _ _ _ (by rw [hm1, Mem.length_write]; omega)]
                    rw [hlast]
                · show v.size + 1 ≤ (Mem.write _ dist (some temp)).length
                  rw [Mem.length_write, length_moveBackwardShift, hm2len]
                  omega
    · rw [if_neg hsp] at hok ⊢
      have hspL : ¬ v.size < v.data.length := hsp
      cases hal : Allocate tt c (v.size * 2) with
      | mk oa c1 =>
        cases oa with
        | none => simp [hal] at hok
        | some nd =>
          obtain ⟨hndlen, _⟩ := Allocate_ok tt c _ nd c1 hal
          cases hcon : construct tt c1 (mk v.data) with
          | mk ox c2 =>
            cases ox with
            | none => simp [hal, hcon] at hok
            | some xv =>
              obtain ⟨hxv, _⟩ := construct_ok tt c1 (mk v.data) xv c2 hcon
              cases hre1 : Reallocate tt v.data 0 dist (nd.write dist (some xv)) 0 c2 with
              | mk e1 rest1 =>
                cases rest1 with
                | mk s2 rest1b =>
                  cases rest1b with
                  | mk d2 c3 =>
                    cases e1 with
                    | true => simp [hal, hcon, hre1] at hok
                    | false =>
                      have hs2len : s2.length = v.data.length := by
                        have := length_Reallocate_src tt v.data 0 dist
                          (nd.write dist (some xv)) 0 c2
                        rw [hre1] at this
                        exact this
                      have hd2len : d2.length = nd.length := by
                        have := length_Reallocate_dst tt v.data 0 dist
                          (nd.write dist (some xv)) 0 c2
                        rw [hre1] at this
                        simp only at this
                        rw [Mem.length_write] at this
                        exact this
                      cases hre2 : Reallocate tt s2 dist (v.size - dist) d2 (dist + 1) c3 with
                      | mk e2 rest2 =>
                        cases rest2 with
                        | mk s3 rest2b =>
                          cases rest2b with
                          | mk d3 c4 =>
                            cases e2 with
                            | true => simp [hal, hcon, hre1, hre2] at hok
                            | false =>
                              simp only [hal, hcon, hre1, hre2] at hok ⊢
                              have hd3len : d3.length = nd.length := by
                                have := length_Reallocate_dst tt s2 dist (v.size - dist)
                                  d2 (dist + 1) c3
                                rw [hre2] at this
                                simp only at this
                                rw [this, hd2len]
                              have hre2out : ∀ j, (j < dist + 1 ∨ dist + 1 + (v.size - dist) ≤ j) →
                                  d3.slot j = d2.slot j := by
                                intro j hj
                                have := slot_Reallocate_dst_outside tt s2 dist (v.size - dist)
                                  d2 (dist + 1) c3 j hj
                                rw [hre2] at this
                                exact this
                              have hre1out : ∀ j, (j < 0 ∨ 0 + dist ≤ j) →
                                  d2.slot j = (nd.write dist (some xv)).slot j := by
                                intro j hj
                                have := slot_Reallocate_dst_outside tt v.data 0 dist
                                  (nd.write dist (some xv)) 0 c2 j hj
                                rw [hre1] at this
                                exact this
                              have hre1ok := slot_Reallocate_dst_ok tt v.data 0 dist
                                (nd.write dist (some xv)) 0 c2
                                (by rw [Mem.length_write, hndlen]; omega) (by rw [hre1])
                              rw [hre1] at hre1ok
                              simp only at hre1ok
                              have hre2ok := slot_Reallocate_dst_ok tt s2 dist (v.size - dist)
                                d2 (dist + 1) c3
                                (by rw [hd2len, hndlen]; omega) (by rw [hre2])
                              rw [hre2] at hre2ok
                              simp only at hre2ok
                              have hs2out : ∀ j, (j < 0 ∨ 0 + dist ≤ j) →
                                  s2.slot j = v.data.slot j := by
                                intro j hj
                                have := slot_Reallocate_src_outside tt v.data 0 dist
                                  (nd.write dist (some xv)) 0 c2 j hj
                                rw [hre1] at this
                                exact this
                              refine ⟨by trivial, ?_, ?_, ?_, ?_⟩
                              · intro j hj
                                rw [hre2out j (by omega)]
                                have := hre1ok j hj
                                simpa using this
                              · rw [hre2out dist (by omega), hre1out dist (by omega)]
                                rw [Mem.slot_write_self _ _ _ (by rw [hndlen]; omega), hxv]
                              · intro j hj1 hj2
                                have := hre2ok (j - dist - 1) (by omega)
                                have ej : dist + 1 + (j - dist - 1) = j := by omega
                                rw [ej] at this
                                rw [this]
                                have ej2 : dist + (j - dist - 1) = j - 1 := by omega
                                rw [ej2]
                                rw [hs2out (j - 1) (by omega)]
                              · show v.size + 1 ≤ d3.length
                                rw [hd3len, hndlen]
                                omega

theorem Emplace_thrown [Inhabited α] (tt : Traits α) (c : Cnt) (v : Vector α)
    (dist : Nat) (mk : Mem α → α)
    (h : (Emplace tt c v dist mk).thrown = true) :
    (Emplace tt c v dist mk).vec.size = v.size ∧
    (Emplace tt c v dist mk).vec.Capacity = v.Capacity ∧
    (∀ j, (v.data.slot j).isSome = true →
      (((Emplace tt c v dist mk).vec.data).slot j).isSome = true) ∧
    ((tt.copyConstructible = true ∨ tt.nothrowMove = true) →
      (Emplace tt c v dist mk).vec = v) := by
  unfold Emplace at h ⊢
  by_cases hend : v.size = dist
  · rw [if_pos hend] at h ⊢
    exact EmplaceBack_thrown tt c v mk h
  · rw [if_neg hend] at h ⊢
    by_cases hsp : v.size < v.Capacity
    · rw [if_pos hsp] at h ⊢
      cases hcon : construct tt c (mk v.data) with
      | mk ot c1 =>
        cases ot with
        | none => simp [hcon]
        | some temp =>
          cases hmv : moveConstructFrom tt c1 v.data (v.size - 1) with
          | mk ol rest =>
            cases rest with
            | mk m1 c2 =>
              cases ol with
              | none => simp [hcon, hmv]
              | some last => simp [hcon, hmv] at h
    · rw [if_neg hsp] at h ⊢
      cases hal : Allocate tt c (v.size * 2) with
      | mk oa c1 =>
        cases oa with
        | none => simp [hal]
        | some nd =>
          cases hcon : construct tt c1 (mk v.data) with
          | mk ox c2 =>
            cases ox with
            | none => simp [hal, hcon]
            | some xv =>
              cases hre1 : Reallocate tt v.data 0 dist (nd.write dist (some xv)) 0 c2 with
              | mk e1 rest1 =>
                cases rest1 with
                | mk s2 rest1b =>
                  cases rest1b with
                  | mk d2 c3 =>
                    cases e1 with
                    | true =>
                      simp only [hal, hcon, hre1]
                      have hlen := length_Reallocate_src tt v.data 0 dist
                        (nd.write dist (some xv)) 0 c2
                      have hliv := fun j hj => slot_Reallocate_src_isSome tt v.data 0 dist
                        (nd.write dist (some xv)) 0 c2 j hj
                      rw [hre1] at hlen hliv
                      simp only at hlen hliv
                      refine ⟨by trivial, hlen, hliv, ?_⟩
                      intro hcm
                      have := Reallocate_strong tt v.data 0 dist
                        (nd.write dist (some xv)) 0 c2 hcm (by rw [hre1])
                      rw [hre1] at this
                      simp only at this
                      rw [this]
                    | false =>
                      cases hre2 : Reallocate tt s2 dist (v.size - dist) d2 (dist + 1) c3 with
                      | mk e2 rest2 =>
                        cases rest2 with
                        | mk s3 rest2b =>
                          cases rest2b with
                          | mk d3 c4 =>
                            cases e2 with
                            | false => simp [hal, hcon, hre1, hre2] at h
                            | true =>
                              simp only [hal, hcon, hre1, hre2]
                              have hlen1 := length_Reallocate_src tt v.data 0 dist
                                (nd.write dist (some xv)) 0 c2
                              rw [hre1] at hlen1
                              simp only at hlen1
                              have hlen2 := length_Reallocate_src tt s2 dist (v.size - dist)
                                d2 (dist + 1) c3
                              rw [hre2] at hlen2
                              simp only at hlen2
                              have hliv1 := fun j hj => slot_Reallocate_src_isSome tt v.data 0
                                dist (nd.write dist (some xv)) 0 c2 j hj
                              rw [hre1] at hliv1
                              simp only at hliv1
                              have hliv2 := fun j hj => slot_Reallocate_src_isSome tt s2 dist
                                (v.size - dist) d2 (dist + 1) c3 j hj
                              rw [hre2] at hliv2
                              simp only at hliv2
                              refine ⟨by trivial,
                                by show s3.length = v.data.length; rw [hlen2, hlen1], ?_, ?_⟩
                              · intro j hj
                                exact hliv2 j (hliv1 j hj)
                              · intro hcm
                                cases hnm : tt.nothrowMove with
                                | true =>
                                  have := Reallocate_nothrow tt s2 dist (v.size - dist)
                                    d2 (dist + 1) c3 hnm
                                  rw [hre2] at this
                                  simp at this
                                | false =>
                                  have hcp : tt.copyConstructible = true := by
                                    cases hcm with
                                    | inl hc => exact hc
                                    | inr hc => rw [hc] at hnm; cases hnm
                                  have hc1 := Reallocate_copy_src tt v.data 0 dist
                                    (nd.write dist (some xv)) 0 c2 hnm hcp
                                  rw [hre1] at hc1
                                  simp only at hc1
                                  have hc2 := Reallocate_copy_src tt s2 dist (v.size - dist)
                                    d2 (dist + 1) c3 hnm hcp
                                  rw [hre2] at hc2
                                  simp only at hc2
                                  rw [hc2, hc1]

theorem Inv_Emplace [Inhabited α] (tt : Traits α) (c : Cnt) (v : Vector α)
    (dist : Nat) (mk : Mem α → α) (hInv : Inv v) (hdist : dist ≤ v.size) :
    Inv (Emplace tt c v dist mk).vec := by
  cases he : (Emplace tt c v dist mk).thrown with
  | false =>
    obtain ⟨h1, h2, h3, h4, h5⟩ := Emplace_ok tt c v dist mk hInv hdist he
    constructor
    · rw [h1]; exact h5
    · intro i hi
      rw [h1] at hi
      rcases Nat.lt_trichotomy i dist with hlt | heq | hgt
      · rw [h2 i hlt]; rfl
      · rw [heq, h3]; rfl
      · rw [h4 i hgt (by omega)]; rfl
  | true =>
    obtain ⟨h1, h2, h3, _⟩ := Emplace_thrown tt c v dist mk he
    constructor
    · rw [h1, h2]; exact hInv.1
    · intro i hi
      rw [h1] at hi
      exact h3 i (hInv.2 i hi)

theorem Emplace_ok_contents [Inhabited α] (tt : Traits α) (c : Cnt) (v : Vector α)
    (dist : Nat) (mk : Mem α → α) (hInv : Inv v) (hdist : dist ≤ v.size)
    (hok : (Emplace tt c v dist mk).thrown = false) :
    (Emplace tt c v dist mk).vec.contents =
      v.contents.insertIdx dist (mk v.data) := by
  obtain ⟨h1, h2, h3, h4, _⟩ := Emplace_ok tt c v dist mk hInv hdist hok
  have hcl : v.contents.length = v.size := contents_length v
  apply List.ext_getElem
  · rw [contents_length, h1, List.length_insertIdx dist v.contents (by omega)]
    omega
  · intro i hi1 hi2
    have hile : i < v.size + 1 := by rwa [contents_length, h1] at hi1
    rw [contents_getElem _ i (by omega) hi1]
    rcases Nat.lt_trichotomy i dist with hlt | heq | hgt
    · rw [List.getElem_insertIdx_of_lt v.contents (mk v.data) dist i hlt (by omega)]
      rw [contents_getElem _ i (by omega) (by omega)]
      rw [h2 i hlt]
      simp
    · subst heq
      rw [List.getElem_insertIdx_self v.contents (mk v.data) i (by omega)]
      rw [h3]
      simp
    · obtain ⟨k, rfl⟩ : ∃ k, i = dist + k + 1 := ⟨i - dist - 1, by omega⟩
      rw [List.getElem_insertIdx_add_succ v.contents (mk v.data) dist k (by omega)]
      rw [contents_getElem _ (dist + k) (by omega) (by omega)]
      rw [h4 (dist + k + 1) (by omega) (by omega)]
      have ek : dist + k + 1 - 1 = dist + k := by omega
      rw [ek]
      simp

theorem Erase_spec [Inhabited α] (tt : Traits α) (v : Vector α) (dist : Nat)
    (hInv : Inv v) (hdist : dist < v.size) :
    (Erase tt v dist).size = v.size - 1 ∧
    (Erase tt v dist).Capacity = v.Capacity ∧
    (∀ j, j < dist → ((Erase tt v dist).data).slot j = v.data.slot j) ∧
    (∀ j, dist ≤ j → j < v.size - 1 →
      ((Erase tt v dist).data).slot j = v.data.slot (j + 1)) ∧
    Inv (Erase tt v dist) := by
  obtain ⟨hsz, hliv⟩ := hInv
  have hszL : v.size ≤ v.data.length := hsz
  unfold Erase
  by_cases hlast : dist + 1 = v.size
  · rw [if_pos hlast]
    have h2 : ∀ j, j < dist → (destroyN v.data dist (v.size - dist)).slot j = v.data.slot j :=
      fun j hj => slot_destroyN_outside _ _ _ _ (by omega)
    refine ⟨by show dist = v.size - 1; omega, ?_, h2, ?_, ?_, ?_⟩
    · show (destroyN v.data dist (v.size - dist)).length = v.data.length
      exact length_destroyN _ _ _
    · intro j hj1 hj2; omega
    · show dist ≤ (destroyN v.data dist (v.size - dist)).length
      rw [length_destroyN]; omega
    · intro i hi
      have hi2 : i < dist := hi
      rw [h2 i hi2]
      exact hliv i (by omega)
  · rw [if_neg hlast]
    have hdd : dist < v.size - 1 := by omega
    have h2 : ∀ j, j < dist →
        ((moveShiftLeft tt v.data dist (v.size - 1 - dist)).write (v.size - 1) none).slot j =
          v.data.slot j := by
      intro j hj
      rw [Mem.slot_write_ne _ _ _ _ (by omega)]
      exact slot_moveShiftLeft_outside tt _ _ _ _ (by omega)
    have h3 : ∀ j, dist ≤ j → j < v.size - 1 →
        ((moveShiftLeft tt v.data dist (v.size - 1 - dist)).write (v.size - 1) none).slot j =
          v.data.slot (j + 1) := by
      intro j hj1 hj2
      rw [Mem.slot_write_ne _ _ _ _ (by omega)]
      have hsh := slot_moveShiftLeft_shifted tt (v.size - 1 - dist) v.data dist
        (fun jj hjj => hliv _ (by omega)) (by omega) (j - dist) (by omega)
      have ej : dist + (j - dist) = j := by omega
      have ej2 : dist + 1 + (j - dist) = j + 1 := by omega
      rw [ej, ej2] at hsh
      exact hsh
    refine ⟨by trivial, ?_, h2, h3, ?_, ?_⟩
    · show (Mem.write _ _ _).length = v.data.length
      rw [Mem.length_write, length_moveShiftLeft]
    · show v.size - 1 ≤ (Mem.write _ _ _).length
      rw [Mem.length_write, length_moveShiftLeft]; omega
    · intro i hi
      have hi2 : i < v.size - 1 := hi
      rcases Nat.lt_or_ge i dist with hilt | hige
      · rw [h2 i hilt]; exact hliv i (by omega)
      · rw [h3 i hige (by omega)]; exact hliv (i + 1) (by omega)

theorem Erase_contents [Inhabited α] (tt : Traits α) (v : Vector α) (dist : Nat)
    (hInv : Inv v) (hdist : dist < v.size) :
    (Erase tt v dist).contents = v.contents.eraseIdx dist := by
  obtain ⟨h1, _, h3, h4, _⟩ := Erase_spec tt v dist hInv hdist
  have hcl : v.contents.length = v.size := contents_length v
  apply List.ext_getElem
  · rw [contents_length, h1, List.length_eraseIdx_of_lt (by omega)]
    omega
  · intro i hi1 hi2
    have hile : i < v.size - 1 := by rwa [contents_length, h1] at hi1
    rw [contents_getElem _ i (by omega) hi1]
    rcases Nat.lt_or_ge i dist with hilt | hige
    · rw [List.getElem_eraseIdx_of_lt v.contents dist i (by omega) hilt]
      rw [contents_getElem _ i (by omega) (by omega)]
      rw [h3 i hilt]
    · rw [List.getElem_eraseIdx_of_ge v.contents dist i (by omega) hige]
      rw [contents_getElem _ (i + 1) (by omega) (by omega)]
      rw [h4 i hige (by omega)]

theorem Inv_Erase [Inhabited α] (tt : Traits α) (v : Vector α) (dist : Nat)
    (hInv : Inv v) (hdist : dist < v.size) : Inv (Erase tt v dist) :=
  (Erase_spec tt v dist hInv hdist).2.2.2.2

theorem PopBack_spec [Inhabited α] (v : Vector α) (hInv : Inv v)
    (hpos : 0 < v.size) :
    (PopBack v).size = v.size - 1 ∧
    (PopBack v).Capacity = v.Capacity ∧
    ((PopBack v).data).slot (v.size - 1) = none ∧
    (PopBack v).contents = v.contents.dropLast ∧
    Inv (PopBack v) := by
  obtain ⟨hsz, hliv⟩ := hInv
  have hszL : v.size ≤ v.data.length := hsz
  have h2 : ∀ j, j < v.size - 1 → ((PopBack v).data).slot j = v.data.slot j := by
    intro j hj
    unfold PopBack
    exact Mem.slot_write_ne _ _ _ _ (by omega)
  refine ⟨rfl, ?_, ?_, ?_, ?_, ?_⟩
  · show (Mem.write _ _ _).length = v.data.length
    exact Mem.length_write _ _ _
  · show (Mem.write _ _ _).slot (v.size - 1) = none
    exact Mem.slot_write_self _ _ _ (by omega)
  · have hcl : v.contents.length = v.size := contents_length v
    have hpl : (PopBack v).contents.length = v.size - 1 := by
      rw [contents_length]; rfl
    apply List.ext_getElem
    · rw [hpl, List.length_dropLast, hcl]
    · intro i hi1 hi2
      have hile : i < v.size - 1 := by rwa [hpl] at hi1
      rw [contents_getElem _ i (by exact hile) hi1]
      rw [List.getElem_dropLast]
      rw [contents_getElem _ i (by omega) (by omega)]
      rw [h2 i hile]
  · show v.size - 1 ≤ (Mem.write _ _ _).length
    rw [Mem.length_write]; omega
  · intro i hi
    have hi2 : i < v.size - 1 := hi
    rw [h2 i hi2]
    exact hliv i (by omega)

theorem Reserve_thrown [Inhabited α] (tt : Traits α) (c : Cnt) (v : Vector α)
    (n : Nat) (h : (Reserve tt c v n).thrown = true) :
    (Reserve tt c v n).vec.size = v.size ∧
    (Reserve tt c v n).vec.Capacity = v.Capacity ∧
    (∀ j, (v.data.slot j).isSome = true →
      (((Reserve tt c v n).vec.data).slot j).isSome = true) ∧
    ((tt.copyConstructible = true ∨ tt.nothrowMove = true) →
      (Reserve tt c v n).vec = v) := by
  unfold Reserve at h ⊢
  by_cases hle : n ≤ v.Capacity
  · rw [if_pos hle] at h ⊢
    simp at h
  · rw [if_neg hle] at h ⊢
    cases hal : Allocate tt c n with
    | mk oa c1 =>
      cases oa with
      | none => simp [hal]
      | some nd =>
        cases hre : Reallocate tt v.data 0 v.size nd 0 c1 with
        | mk e rest =>
          cases rest with
          | mk s2 rest2 =>
            cases rest2 with
            | mk d2 c2 =>
              cases e with
              | false => simp [hal, hre] at h
              | true =>
                simp only [hal, hre]
                have hlen := length_Reallocate_src tt v.data 0 v.size nd 0 c1
                have hliv := fun j hj =>
                  slot_Reallocate_src_isSome tt v.data 0 v.size nd 0 c1 j hj
                rw [hre] at hlen hliv
                simp only at hlen hliv
                refine ⟨by trivial, hlen, hliv, ?_⟩
                intro hcm
                have := Reallocate_strong tt v.data 0 v.size nd 0 c1 hcm (by rw [hre])
                rw [hre] at this
                simp only at this
                rw [this]

theorem Reserve_ok [Inhabited α] (tt : Traits α) (c : Cnt) (v : Vector α)
    (n : Nat) (hInv : Inv v) (hok : (Reserve tt c v n).thrown = false) :
    (Reserve tt c v n).vec.size = v.size ∧
    v.Capacity ≤ (Reserve tt c v n).vec.Capacity ∧
    n ≤ (Reserve tt c v n).vec.Capacity ∧
    (∀ j, j < v.size → ((Reserve tt c v n).vec.data).slot j =
      some ((v.data.slot j).getD default)) ∧
    Inv (Reserve tt c v n).vec := by
  obtain ⟨hsz, hliv⟩ := hInv
  have hszL : v.size ≤ v.data.length := hsz
  unfold Reserve at hok ⊢
  by_cases hle : n ≤ v.Capacity
  · rw [if_pos hle] at hok ⊢
    exact ⟨rfl, le_refl _, hle, fun j hj => slot_eq_some_getD (hliv j hj), hsz, hliv⟩
  · rw [if_neg hle] at hok ⊢
    have hleL : ¬ n ≤ v.data.length := hle
    cases hal : Allocate tt c n with
    | mk oa c1 =>
      cases oa with
      | none => simp [hal] at hok
      | some nd =>
        obtain ⟨hndlen, _⟩ := Allocate_ok tt c n nd c1 hal
        cases hre : Reallocate tt v.data 0 v.size nd 0 c1 with
        | mk e rest =>
          cases rest with
          | mk s2 rest2 =>
            cases rest2 with
            | mk d2 c2 =>
              cases e with
              | true => simp [hal, hre] at hok
              | false =>
                simp only [hal, hre]
                have hdl := length_Reallocate_dst tt v.data 0 v.size nd 0 c1
                rw [hre] at hdl
                simp only at hdl
                rw [hndlen] at hdl
                have hdok := slot_Reallocate_dst_ok tt v.data 0 v.size nd 0 c1
                  (by rw [hndlen]; omega) (by rw [hre])
                rw [hre] at hdok
                simp only at hdok
                have hslots : ∀ j, j < v.size →
                    d2.slot j = some ((v.data.slot j).getD default) := by
                  intro j hj
                  have := hdok j hj
                  simpa using this
                refine ⟨by trivial, ?_, ?_, hslots, ?_, ?_⟩
                · show v.data.length ≤ d2.length
                  rw [hdl]; omega
                · show n ≤ d2.length
                  rw [hdl]
                · show v.size ≤ d2.length
                  rw [hdl]; omega
                · intro i hi
                  have hi2 : i < v.size := hi
                  rw [hslots i hi2]
                  rfl

theorem Inv_Reserve [Inhabited α] (tt : Traits α) (c : Cnt) (v : Vector α)
    (n : Nat) (hInv : Inv v) : Inv (Reserve tt c v n).vec := by
  cases he : (Reserve tt c v n).thrown with
  | false => exact (Reserve_ok tt c v n hInv he).2.2.2.2
  | true =>
    obtain ⟨h1, h2, h3, _⟩ := Reserve_thrown tt c v n he
    constructor
    · rw [h1, h2]; exact hInv.1
    · intro i hi
      rw [h1] at hi
      exact h3 i (hInv.2 i hi)

theorem Inv_Resize [Inhabited α] (tt : Traits α) (c : Cnt) (v : Vector α)
    (n : Nat) (hInv : Inv v) : Inv (Resize tt c v n).vec := by
  obtain ⟨hsz, hliv⟩ := hInv
  have hszL : v.size ≤ v.data.length := hsz
  unfold Resize
  by_cases hle : n ≤ v.size
  · rw [if_pos hle]
    constructor
    · show n ≤ (destroyN v.data n (v.size - n)).length
      rw [length_destroyN]; omega
    · intro i hi
      have hi2 : i < n := hi
      show ((destroyN v.data n (v.size - n)).slot i).isSome = true
      rw [slot_destroyN_outside _ _ _ _ (by omega)]
      exact hliv i (by omega)
  · rw [if_neg hle]
    cases hrv : Reserve tt c v n with
    | mk th v1 c1 =>
      cases th with
      | true =>
        simp only
        have hInv1 := Inv_Reserve tt c v n ⟨hsz, hliv⟩
        rw [hrv] at hInv1
        exact hInv1
      | false =>
        obtain ⟨hr1, hr2, hr3, hr4, hr5⟩ := Reserve_ok tt c v n ⟨hsz, hliv⟩ (by rw [hrv])
        rw [hrv] at hr1 hr2 hr3 hr4 hr5
        simp only at hr1 hr2 hr3 hr4 hr5
        cases hvc : uninitializedValueConstructN tt v1.data v.size (n - v.size) c1 with
        | mk e rest =>
          cases rest with
          | mk m c2 =>
            have hml : m.length = v1.data.length := by
              have := length_uninitializedValueConstructN tt (n - v.size) v1.data v.size c1
              rw [hvc] at this
              exact this
            have hmout : ∀ j, (j < v.size ∨ v.size + (n - v.size) ≤ j) →
                m.slot j = v1.data.slot j := by
              intro j hj
              have := slot_uninitializedValueConstructN_outside tt (n - v.size)
                v1.data v.size c1 j hj
              rw [hvc] at this
              exact this
            have hv1szL : v.size ≤ v1.data.length := by
              have h1 : v1.size ≤ v1.Capacity := hr5.1
              rw [hr1] at h1
              exact h1
            have hr3L : n ≤ v1.data.length := hr3
            cases e with
            | true =>
              simp only [hvc]
              constructor
              · show v.size ≤ m.length
                rw [hml]; exact hv1szL
              · intro i hi
                have hi2 : i < v.size := hi
                show (m.slot i).isSome = true
                rw [hmout i (by omega)]
                have := hr5.2 i (by rw [hr1]; omega)
                exact this
            | false =>
              simp only [hvc]
              have hmin : ∀ j, v.size ≤ j → j < n → m.slot j = some (default : α) := by
                intro j hj1 hj2
                have := slot_uninitializedValueConstructN_ok tt (n - v.size) v1.data
                  v.size c1 (by show v.size + (n - v.size) ≤ v1.data.length; omega)
                  (by rw [hvc]) (j - v.size) (by omega)
                rw [hvc] at this
                simp only at this
                have ej : v.size + (j - v.size) = j := by omega
                rw [ej] at this
                exact this
              constructor
              · show n ≤ m.length
                rw [hml]; omega
              · intro i hi
                have hi2 : i < n := hi
                show (m.slot i).isSome = true
                rcases Nat.lt_or_ge i v.size with hilt | hige
                · rw [hmout i (by omega)]
                  exact hr5.2 i (by rw [hr1]; omega)
                · rw [hmin i hige hi2]
                  rfl

theorem copyCtor_ok [Inhabited α] (tt : Traits α) (c : Cnt) (other : Vector α)
    (w : Vector α) (c1 : Cnt) (hInv : Inv other)
    (h : copyCtor tt c other = (some w, c1)) :
    w.size = other.size ∧ w.Capacity = other.size ∧
    w.contents = other.contents ∧ Inv w := by
  obtain ⟨hsz, hliv⟩ := hInv
  unfold copyCtor at h
  cases hal : Allocate tt c other.size with
  | mk oa ca =>
    cases oa with
    | none => rw [hal] at h; simp at h
    | some nd =>
      obtain ⟨hndlen, _⟩ := Allocate_ok tt c other.size nd ca hal
      cases hcc : uninitializedCopyN tt other.data 0 other.size nd 0 ca with
      | mk e rest =>
        cases rest with
        | mk m c2 =>
          simp only [hal, hcc] at h
          cases e with
          | true => simp at h
          | false =>
            simp only at h
            injection h with h1 h2
            injection h1 with h1
            subst h1
            have hml : m.length = other.size := by
              have := length_uninitializedCopyN tt other.size other.data 0 nd 0 ca
              rw [hcc] at this
              simp only at this
              rw [this, hndlen]
            have hmok : ∀ i, i < other.size →
                m.slot i = some ((other.data.slot i).getD default) := by
              intro i hi
              have := slot_uninitializedCopyN_ok tt other.size other.data 0 nd 0 ca
                (by omega) (by rw [hcc]) i hi
              rw [hcc] at this
              simpa using this
            refine ⟨rfl, hml, ?_, by show other.size ≤ m.length; rw [hml], ?_⟩
            · apply List.ext_getElem
              · rw [contents_length, contents_length]
              · intro i hi1 hi2
                have hi3 : i < other.size := by rwa [contents_length] at hi2
                rw [contents_getElem _ i (by exact hi3) hi1]
                rw [contents_getElem _ i hi3 hi2]
                show (Mem.slot m i).getD default = _
                rw [hmok i hi3]
                simp
            · intro i hi
              have hi2 : i < other.size := hi
              show (m.slot i).isSome = true
              rw [hmok i hi2]
              rfl

theorem mkSized_ok [Inhabited α] (tt : Traits α) (c : Cnt) (n : Nat)
    (w : Vector α) (c1 : Cnt) (h : mkSized tt c n = (some w, c1)) :
    w.size = n ∧ w.Capacity = n ∧ Inv w := by
  unfold mkSized at h
  cases hal : Allocate tt c n with
  | mk oa ca =>
    cases oa with
    | none => rw [hal] at h; simp at h
    | some nd =>
      obtain ⟨hndlen, _⟩ := Allocate_ok tt c n nd ca hal
      cases hvc : uninitializedValueConstructN tt nd 0 n ca with
      | mk e rest =>
        cases rest with
        | mk m c2 =>
          simp only [hal, hvc] at h
          cases e with
          | true => simp at h
          | false =>
            simp only at h
            injection h with h1 h2
            injection h1 with h1
            subst h1
            have hml : m.length = n := by
              have := length_uninitializedValueConstructN tt n nd 0 ca
              rw [hvc] at this
              simp only at this
              rw [this, hndlen]
            refine ⟨rfl, hml, by show n ≤ m.length; rw [hml], ?_⟩
            intro i hi
            have hi2 : i < n := hi
            show (m.slot i).isSome = true
            have := slot_uninitializedValueConstructN_ok tt n nd 0 ca
              (by omega) (by rw [hvc]) i hi2
            rw [hvc] at this
            simp only at this
            simp at this
            rw [this]
            rfl

theorem Inv_copyAssign [Inhabited α] (tt : Traits α) (c : Cnt)
    (self rhs : Vector α) (isSelf : Bool)
    (hInvS : Inv self) (hInvR : Inv rhs) :
    Inv (copyAssign tt c self rhs isSelf).vec := by
  obtain ⟨hszS, hlivS⟩ := hInvS
  obtain ⟨hszR, hlivR⟩ := hInvR
  have hszSL : self.size ≤ self.data.length := hszS
  unfold copyAssign
  cases isSelf with
  | true => exact ⟨hszS, hlivS⟩
  | false =>
    simp only [Bool.false_eq_true, if_false]
    by_cases hgt : rhs.size > self.Capacity
    · rw [if_pos hgt]
      cases hcp : copyCtor tt c rhs with
      | mk ow ca =>
        cases ow with
        | none => exact ⟨hszS, hlivS⟩
        | some w =>
          simp only
          exact (copyCtor_ok tt c rhs w ca ⟨hszR, hlivR⟩ hcp).2.2.2
    · rw [if_neg hgt]
      have hRC : rhs.size ≤ self.data.length := by
        have : rhs.size ≤ self.Capacity := by omega
        exact this
      have hm1len : (copyAssignN rhs.data self.data 0 (min self.size rhs.size)).length =
          self.data.length := length_copyAssignN _ _ _ _
      have hm1in : ∀ j, j < min self.size rhs.size →
          (copyAssignN rhs.data self.data 0 (min self.size rhs.size)).slot j =
            rhs.data.slot j := by
        intro j hj
        exact slot_copyAssignN_inside _ _ _ _ _ (by omega) (by omega) (by omega)
      by_cases hlt : self.size < rhs.size
      · rw [if_pos hlt]
        have hmin : min self.size rhs.size = self.size := by omega
        cases hcc : uninitializedCopyN tt rhs.data self.size (rhs.size - self.size)
            (copyAssignN rhs.data self.data 0 (min self.size rhs.size)) self.size c with
        | mk e rest =>
          cases rest with
          | mk m2 c2 =>
            have hm2len : m2.length = self.data.length := by
              have := length_uninitializedCopyN tt (rhs.size - self.size) rhs.data self.size
                (copyAssignN rhs.data self.data 0 (min self.size rhs.size)) self.size c
              rw [hcc] at this
              simp only at this
              rw [this, hm1len]
            have hm2low : ∀ j, j < self.size → m2.slot j = rhs.data.slot j := by
              intro j hj
              have := slot_uninitializedCopyN_outside tt (rhs.size - self.size) rhs.data
                self.size (copyAssignN rhs.data self.data 0 (min self.size rhs.size))
                self.size c j (by omega)
              rw [hcc] at this
              simp only at this
              rw [this]
              exact hm1in j (by omega)
            cases e with
            | true =>
              simp only
              constructor
              · show self.size ≤ m2.length
                rw [hm2len]; omega
              · intro i hi
                have hi2 : i < self.size := hi
                show (m2.slot i).isSome = true
                rw [hm2low i hi2]
                exact hlivR i (by omega)
            | false =>
              simp only
              have hm2high : ∀ j, self.size ≤ j → j < rhs.size →
                  m2.slot j = some ((rhs.data.slot j).getD default) := by
                intro j hj1 hj2
                have := slot_uninitializedCopyN_ok tt (rhs.size - self.size) rhs.data
                  self.size (copyAssignN rhs.data self.data 0 (min self.size rhs.size))
                  self.size c (by rw [hm1len]; omega) (by rw [hcc]) (j - self.size) (by omega)
                rw [hcc] at this
                simp only at this
                have ej : self.size + (j - self.size) = j := by omega
                rw [ej] at this
                exact this
              constructor
              · show rhs.size ≤ m2.length
                rw [hm2len]; omega
              · intro i hi
                have hi2 : i < rhs.size := hi
                show (m2.slot i).isSome = true
                rcases Nat.lt_or_ge i self.size with hilt | hige
                · rw [hm2low i hilt]
                  exact hlivR i (by omega)
                · rw [hm2high i hige hi2]
                  rfl
      · rw [if_neg hlt]
        have hmin : min self.size rhs.size = rhs.size := by omega
        simp only
        constructor
        · show rhs.size ≤ (destroyN _ rhs.size (self.size - rhs.size)).length
          rw [length_destroyN, hm1len]; omega
        · intro i hi
          have hi2 : i < rhs.size := hi
          show ((destroyN _ rhs.size (self.size - rhs.size)).slot i).isSome = true
          rw [slot_destroyN_outside _ _ _ _ (by omega)]
          rw [hm1in i (by omega)]
          exact hlivR i (by omega)

theorem Inv_step [Inhabited α] (tt : Traits α) (op : Op α) (v : Vector α) (c : Cnt)
    (hInv : Inv v) (hpre : op.pre v) : Inv (op.step tt v c).1 := by
  cases op with
  | pushBack x => exact Inv_EmplaceBack tt c v _ hInv
  | emplaceBack mk => exact Inv_EmplaceBack tt c v mk hInv
  | popBack => exact (PopBack_spec v hInv hpre).2.2.2.2
  | reserve n => exact Inv_Reserve tt c v n hInv
  | resize n => exact Inv_Resize tt c v n hInv
  | insert p x => exact Inv_Emplace tt c v p _ hInv hpre
  | emplace p mk => exact Inv_Emplace tt c v p mk hInv hpre
  | eraseAt p => exact Inv_Erase tt v p hInv hpre
  | copyAssignFrom rhs => exact Inv_copyAssign tt c v rhs false hInv hpre
  | copyAssignSelf => exact Inv_copyAssign tt c v v true hInv hInv
  | moveAssignFrom rhs => exact hpre
  | moveAssignSelf => exact hInv
  | swapWith rhs => exact hpre

theorem Inv_runStates [Inhabited α] (tt : Traits α) (ops : List (Op α)) :
    ∀ (v : Vector α) (c : Cnt), Inv v → PreAll tt ops v c →
      ∀ w ∈ runStates tt ops v c, Inv w := by
  induction ops with
  | nil =>
    intro v c _ _ w hw
    cases hw
  | cons op ops ih =>
    intro v c hInv hpre w hw
    obtain ⟨hp1, hp2⟩ := hpre
    have hstep := Inv_step tt op v c hInv hp1
    rcases List.mem_cons.mp hw with h | h
    · rw [h]; exact hstep
    · exact ih (op.step tt v c).1 (op.step tt v c).2 hstep hp2 w h

/-- C1 counterexample: for the move-only element type ttMoveOnly (not
copy-constructible, throwing move constructor that leaves a moved-from source
holding 0, throwing from the third construction on), a growth-triggering
EmplaceBack on the full vector of contents 1, 2 throws during the relocation
of the existing elements, and after the exception Size and Capacity are
unchanged but the element contents are not: element 0 was moved from before
the second move threw.  This refutes the claim as stated, which quantifies
over every element type. -/
theorem C1_counterexample :
    (⟨[some 1, some 2], 2⟩ : Vector Nat).Size =
      (⟨[some 1, some 2], 2⟩ : Vector Nat).Capacity ∧
    (EmplaceBack ttMoveOnly c0 ⟨[some 1, some 2], 2⟩ (fun _ => 5)).thrown = true ∧
    (EmplaceBack ttMoveOnly c0 ⟨[some 1, some 2], 2⟩ (fun _ => 5)).vec.Size = 2 ∧
    (EmplaceBack ttMoveOnly c0 ⟨[some 1, some 2], 2⟩ (fun _ => 5)).vec.Capacity = 2 ∧
    (EmplaceBack ttMoveOnly c0 ⟨[some 1, some 2], 2⟩ (fun _ => 5)).vec.contents ≠
      (⟨[some 1, some 2], 2⟩ : Vector Nat).contents := by
  decide

/-- C1 (amended): if a growth-triggering EmplaceBack (size equal to capacity
before the call) fails because the new element's construction, the
allocation, or the relocation of existing elements throws, then - provided
the element type is copy-constructible or has a non-throwing move
constructor, so that the relocation step cannot both throw and mutate the
originals - after the exception propagates the vector state is exactly as
before the call: same Size, same Capacity, same element contents. -/
theorem C1_amended [Inhabited α] (tt : Traits α) (c : Cnt) (v : Vector α)
    (mk : Mem α → α) (hInv : Inv v) (hfull : v.Size = v.Capacity)
    (hrel : tt.copyConstructible = true ∨ tt.nothrowMove = true)
    (hthrow : (EmplaceBack tt c v mk).thrown = true) :
    (EmplaceBack tt c v mk).vec = v ∧
    (EmplaceBack tt c v mk).vec.Size = v.Size ∧
    (EmplaceBack tt c v mk).vec.Capacity = v.Capacity ∧
    (EmplaceBack tt c v mk).vec.contents = v.contents := by
  have h := (EmplaceBack_thrown tt c v mk hthrow).2.2.2 hrel
  exact ⟨h, by rw [h], by rw [h], by rw [h]⟩

/-- C1 (witness): the amended theorem applied to a full one-element vector of
a copy-constructible element type whose next construction throws. -/
theorem C1_amended_witness :
    Inv (⟨[some 7], 1⟩ : Vector Nat) ∧
    (⟨[some 7], 1⟩ : Vector Nat).Size = (⟨[some 7], 1⟩ : Vector Nat).Capacity ∧
    (ttThrowAll.copyConstructible = true ∨ ttThrowAll.nothrowMove = true) ∧
    (EmplaceBack ttThrowAll c0 ⟨[some 7], 1⟩ (fun _ => 9)).thrown = true ∧
    ((EmplaceBack ttThrowAll c0 ⟨[some 7], 1⟩ (fun _ => 9)).vec = ⟨[some 7], 1⟩ ∧
      (EmplaceBack ttThrowAll c0 ⟨[some 7], 1⟩ (fun _ => 9)).vec.Size =
        (⟨[some 7], 1⟩ : Vector Nat).Size ∧
      (EmplaceBack ttThrowAll c0 ⟨[some 7], 1⟩ (fun _ => 9)).vec.Capacity =
        (⟨[some 7], 1⟩ : Vector Nat).Capacity ∧
      (EmplaceBack ttThrowAll c0 ⟨[some 7], 1⟩ (fun _ => 9)).vec.contents =
        (⟨[some 7], 1⟩ : Vector Nat).contents) :=
  ⟨by decide, by decide, by decide, by decide,
    C1_amended ttThrowAll c0 ⟨[some 7], 1⟩ (fun _ => 9)
      (by decide) (by decide) (by decide) (by decide)⟩

/-- C2: evaluation of the modelled RawMemory move operations.  Move
construction does leave its source with a null buffer and zero capacity, but
move assignment into a destination owning a non-null buffer (here address 5,
capacity 1, moving from address 7, capacity 2) leaves the source holding the
destination's old - already deallocated - non-null buffer pointer, and the
source function reaches its end without any return statement, contradicting
the claim that the moved-from source's buffer is null and that a reference
is returned. -/
theorem C2_eval :
    (RawMemory.moveCtor ⟨7, 2⟩).2 = ⟨0, 0⟩ ∧
    (RawMemory.moveCtor ⟨7, 2⟩).1 = ⟨7, 2⟩ ∧
    (RawMemory.moveAssign ⟨5, 1⟩ ⟨7, 2⟩).1 = ⟨7, 2⟩ ∧
    (RawMemory.moveAssign ⟨5, 1⟩ ⟨7, 2⟩).2.capacity = 0 ∧
    (RawMemory.moveAssign ⟨5, 1⟩ ⟨7, 2⟩).2.buffer = 5 ∧
    (RawMemory.moveAssign ⟨5, 1⟩ ⟨7, 2⟩).2.buffer ≠ 0 := by
  decide

/-- C3: a growth-triggering EmplaceBack that completes grows the capacity to
exactly max 1 (2 times the old size), increments the size, and leaves every
previously-live element at its old position followed by the new element;
PushBack is EmplaceBack applied to its forwarded value. -/
theorem C3_growth [Inhabited α] (tt : Traits α) (c : Cnt) (v : Vector α)
    (mk : Mem α → α) (x : α) (hInv : Inv v) (hfull : v.Size = v.Capacity)
    (hok : (EmplaceBack tt c v mk).thrown = false) :
    (EmplaceBack tt c v mk).vec.Capacity = max 1 (v.Size * 2) ∧
    (EmplaceBack tt c v mk).vec.Size = v.Size + 1 ∧
    (EmplaceBack tt c v mk).vec.contents = v.contents ++ [mk v.data] ∧
    PushBack tt c v x = EmplaceBack tt c v (fun _ => x) := by
  obtain ⟨h1, _, _, h4, _, _⟩ := EmplaceBack_ok tt c v mk hInv hok
  have hcap := h4 hfull
  refine ⟨?_, h1, EmplaceBack_ok_contents tt c v mk hInv hok, rfl⟩
  rw [hcap]
  show (if v.size = 0 then 1 else v.size * 2) = max 1 (v.size * 2)
  by_cases h0 : v.size = 0
  · rw [if_pos h0, h0]
    decide
  · rw [if_neg h0]
    exact (max_eq_right (by omega)).symm

/-- C3 (witness): the growth theorem applied to a full one-element vector of
integers. -/
theorem C3_growth_witness :
    Inv (⟨[some 1], 1⟩ : Vector Nat) ∧
    (⟨[some 1], 1⟩ : Vector Nat).Size = (⟨[some 1], 1⟩ : Vector Nat).Capacity ∧
    (EmplaceBack ttNat c0 ⟨[some 1], 1⟩ (fun _ => 2)).thrown = false ∧
    ((EmplaceBack ttNat c0 ⟨[some 1], 1⟩ (fun _ => 2)).vec.Capacity =
        max 1 ((⟨[some 1], 1⟩ : Vector Nat).Size * 2) ∧
      (EmplaceBack ttNat c0 ⟨[some 1], 1⟩ (fun _ => 2)).vec.Size =
        (⟨[some 1], 1⟩ : Vector Nat).Size + 1 ∧
      (EmplaceBack ttNat c0 ⟨[some 1], 1⟩ (fun _ => 2)).vec.contents =
        (⟨[some 1], 1⟩ : Vector Nat).contents ++
          [(fun _ => 2) (⟨[some 1], 1⟩ : Vector Nat).data] ∧
      PushBack ttNat c0 ⟨[some 1], 1⟩ 2 = EmplaceBack ttNat c0 ⟨[some 1], 1⟩ (fun _ => 2)) :=
  ⟨by decide, by decide, by decide,
    C3_growth ttNat c0 ⟨[some 1], 1⟩ (fun _ => 2) 2 (by decide) (by decide) (by decide)⟩

/-- C7: the concrete scenario: starting from the empty integer vector,
PushBack 1, 2, 3 gives Size 3 and contents 1, 2, 3; Insert of 99 before
position 1 gives contents 1, 99, 2, 3; Erase at position 0 gives contents
99, 2, 3; PopBack gives contents 99, 2 with Size 2.  No step throws. -/
theorem C7_scenario :
    sc3.Size = 3 ∧ sc3.contents = [1, 2, 3] ∧
    sc4.contents = [1, 99, 2, 3] ∧
    sc5.contents = [99, 2, 3] ∧
    sc6.contents = [99, 2] ∧ sc6.Size = 2 ∧
    (PushBack ttNat c0 sc0 1).thrown = false ∧
    (PushBack ttNat c0 sc1 2).thrown = false ∧
    (PushBack ttNat c0 sc2 3).thrown = false ∧
    (Insert ttNat c0 sc3 1 99).thrown = false := by
  decide

/-- C9 counterexample: an allocated but empty vector.  Its Size is 0, so a
PopBack call violates the documented precondition, yet the only debug
assertion on PopBack's path - assert(offset <= capacity_) inside RawMemory
operator+, which receives offset = size_ because data_ + size_ - 1U parses
as (data_ + size_) - 1U - holds, so the violation is not guarded by a debug
assertion, refuting the claim's guard half. -/
theorem C9_counterexample :
    (⟨[none, none], 0⟩ : Vector Nat).Size = 0 ∧
    PopBackAssertHolds (⟨[none, none], 0⟩ : Vector Nat) := by
  decide

/-- C9 (amended): on a non-empty vector PopBack destroys the last live
element (its slot becomes uninitialized), decrements Size by one, and leaves
Capacity unchanged.  Calling PopBack on an empty vector remains a
precondition violation, but it is NOT caught by the debug assertion: the
offset handed to RawMemory operator+ is size_ itself (the - 1U applies to
the returned pointer), so assert(offset <= capacity_) holds for every vector
satisfying the class invariant, the empty one included. -/
theorem C9_popback [Inhabited α] (v : Vector α) (hInv : Inv v) :
    (0 < v.Size →
      (PopBack v).Size = v.Size - 1 ∧
      (PopBack v).Capacity = v.Capacity ∧
      ((PopBack v).data).slot (v.Size - 1) = none ∧
      (PopBack v).contents = v.contents.dropLast ∧
      PopBackAssertHolds v) ∧
    (v.Size = 0 → PopBackAssertHolds v) := by
  constructor
  · intro hpos
    obtain ⟨h1, h2, h3, h4, _⟩ := PopBack_spec v hInv hpos
    exact ⟨h1, h2, h3, h4, hInv.1⟩
  · intro _
    exact hInv.1

/-- C9 (witness): the amended theorem applied to a two-element vector,
whose PopBack leaves contents 3 with Size 1, Capacity 2, and a passing
assertion. -/
theorem C9_popback_witness :
    Inv (⟨[some 3, some 4], 2⟩ : Vector Nat) ∧
    ((0 < (⟨[some 3, some 4], 2⟩ : Vector Nat).Size →
      (PopBack (⟨[some 3, some 4], 2⟩ : Vector Nat)).Size =
        (⟨[some 3, some 4], 2⟩ : Vector Nat).Size - 1 ∧
      (PopBack (⟨[some 3, some 4], 2⟩ : Vector Nat)).Capacity =
        (⟨[some 3, some 4], 2⟩ : Vector Nat).Capacity ∧
      ((PopBack (⟨[some 3, some 4], 2⟩ : Vector Nat)).data).slot
        ((⟨[some 3, some 4], 2⟩ : Vector Nat).Size - 1) = none ∧
      (PopBack (⟨[some 3, some 4], 2⟩ : Vector Nat)).contents =
        (⟨[some 3, some 4], 2⟩ : Vector Nat).contents.dropLast ∧
      PopBackAssertHolds (⟨[some 3, some 4], 2⟩ : Vector Nat)) ∧
    ((⟨[some 3, some 4], 2⟩ : Vector Nat).Size = 0 →
      PopBackAssertHolds (⟨[some 3, some 4], 2⟩ : Vector Nat))) :=
  ⟨by decide, C9_popback (⟨[some 3, some 4], 2⟩ : Vector Nat) (by decide)⟩

/-- C4: the relocation step move-constructs exactly when the element type has
a non-throwing move constructor or is not copy-constructible (the sources are
left in their moved-from states and the destination receives the values), and
otherwise copy-constructs (the source memory comes back from the call
untouched, even when the relocation throws); in every case the destination
receives the source values on success, and after a throw every originally
live source slot still holds a live object. -/
theorem C4_relocation_policy [Inhabited α] (tt : Traits α) (src : Mem α)
    (s0 n : Nat) (dst : Mem α) (d0 : Nat) (c : Cnt)
    (hs : s0 + n ≤ src.length) (hd : d0 + n ≤ dst.length) :
    ((tt.nothrowMove || !tt.copyConstructible) = true →
      (Reallocate tt src s0 n dst d0 c).1 = false →
      ∀ i, i < n → ((Reallocate tt src s0 n dst d0 c).2.1).slot (s0 + i) =
        some (tt.moved ((src.slot (s0 + i)).getD default))) ∧
    ((tt.nothrowMove || !tt.copyConstructible) = false →
      (Reallocate tt src s0 n dst d0 c).2.1 = src) ∧
    ((Reallocate tt src s0 n dst d0 c).1 = false →
      ∀ i, i < n → ((Reallocate tt src s0 n dst d0 c).2.2.1).slot (d0 + i) =
        some ((src.slot (s0 + i)).getD default)) ∧
    ((Reallocate tt src s0 n dst d0 c).1 = true →
      ∀ j, (src.slot j).isSome = true →
        (((Reallocate tt src s0 n dst d0 c).2.1).slot j).isSome = true) := by
  refine ⟨?_, ?_, ?_, ?_⟩
  · intro hc hok
    exact slot_Reallocate_src_move_ok tt src s0 n dst d0 c hc hs hok
  · intro hc
    have hc2 : tt.nothrowMove = false ∧ tt.copyConstructible = true := by
      constructor
      · cases hm : tt.nothrowMove
        · rfl
        · rw [hm] at hc; simp at hc
      · cases hcp : tt.copyConstructible
        · rw [hcp] at hc; simp at hc
        · rfl
    exact Reallocate_copy_src tt src s0 n dst d0 c hc2.1 hc2.2
  · intro hok
    exact slot_Reallocate_dst_ok tt src s0 n dst d0 c hd hok
  · intro _ j hj
    exact slot_Reallocate_src_isSome tt src s0 n dst d0 c j hj

/-- C4 (witness): the policy theorem applied to a copy-constructible type
with a throwing move relocating two live elements into fresh storage. -/
theorem C4_relocation_policy_witness :
    (0 : Nat) + 2 ≤ ([some 1, some 2] : Mem Nat).length ∧
    (0 : Nat) + 2 ≤ ([none, none] : Mem Nat).length ∧
    (((ttCopyThrow.nothrowMove || !ttCopyThrow.copyConstructible) = true →
      (Reallocate ttCopyThrow [some 1, some 2] 0 2 [none, none] 0 c0).1 = false →
      ∀ i, i < 2 →
        ((Reallocate ttCopyThrow [some 1, some 2] 0 2 [none, none] 0 c0).2.1).slot (0 + i) =
          some (ttCopyThrow.moved ((Mem.slot [some 1, some 2] (0 + i)).getD default))) ∧
    ((ttCopyThrow.nothrowMove || !ttCopyThrow.copyConstructible) = false →
      (Reallocate ttCopyThrow [some 1, some 2] 0 2 [none, none] 0 c0).2.1 = [some 1, some 2]) ∧
    ((Reallocate ttCopyThrow [some 1, some 2] 0 2 [none, none] 0 c0).1 = false →
      ∀ i, i < 2 →
        ((Reallocate ttCopyThrow [some 1, some 2] 0 2 [none, none] 0 c0).2.2.1).slot (0 + i) =
          some ((Mem.slot [some 1, some 2] (0 + i)).getD default)) ∧
    ((Reallocate ttCopyThrow [some 1, some 2] 0 2 [none, none] 0 c0).1 = true →
      ∀ j, (Mem.slot [some 1, some 2] j).isSome = true →
        (((Reallocate ttCopyThrow [some 1, some 2] 0 2 [none, none] 0 c0).2.1).slot j).isSome =
          true)) :=
  ⟨by decide, by decide,
    C4_relocation_policy ttCopyThrow [some 1, some 2] 0 2 [none, none] 0 c0
      (by decide) (by decide)⟩

/-- C5: when the right-hand side's size exceeds the destination's capacity,
copy assignment builds a complete copy in fresh storage and swaps it in: on
success the destination equals rhs element for element with rhs's size, and
if the allocation or any element copy throws the destination is exactly as
before; self-assignment is a no-op. -/
theorem C5_copy_assign [Inhabited α] (tt : Traits α) (c : Cnt)
    (self rhs w : Vector α) (hInvS : Inv self) (hInvR : Inv rhs)
    (hgt : self.Capacity < rhs.Size) :
    ((copyAssign tt c self rhs false).thrown = false →
      (copyAssign tt c self rhs false).vec.contents = rhs.contents ∧
      (copyAssign tt c self rhs false).vec.Size = rhs.Size) ∧
    ((copyAssign tt c self rhs false).thrown = true →
      (copyAssign tt c self rhs false).vec = self) ∧
    copyAssign tt c w w true = ⟨false, w, c⟩ := by
  have hgt2 : rhs.size > self.Capacity := hgt
  refine ⟨?_, ?_, ?_⟩
  · intro hok
    unfold copyAssign at hok ⊢
    simp only [Bool.false_eq_true, if_false] at hok ⊢
    rw [if_pos hgt2] at hok ⊢
    cases hcp : copyCtor tt c rhs with
    | mk ow c1 =>
      cases ow with
      | none => simp [hcp] at hok
      | some u =>
        simp only [hcp]
        obtain ⟨hu1, _, hu3, _⟩ := copyCtor_ok tt c rhs u c1 hInvR hcp
        exact ⟨hu3, hu1⟩
  · intro hth
    unfold copyAssign at hth ⊢
    simp only [Bool.false_eq_true, if_false] at hth ⊢
    rw [if_pos hgt2] at hth ⊢
    cases hcp : copyCtor tt c rhs with
    | mk ow c1 =>
      cases ow with
      | none => simp [hcp]
      | some u => simp [hcp] at hth
  · rfl

/-- C5 (witness): the copy-assignment theorem applied to a full one-element
destination and a two-element right-hand side of a never-throwing type. -/
theorem C5_copy_assign_witness :
    Inv (⟨[some 9], 1⟩ : Vector Nat) ∧
    Inv (⟨[some 1, some 2], 2⟩ : Vector Nat) ∧
    (⟨[some 9], 1⟩ : Vector Nat).Capacity < (⟨[some 1, some 2], 2⟩ : Vector Nat).Size ∧
    (((copyAssign ttNat c0 ⟨[some 9], 1⟩ ⟨[some 1, some 2], 2⟩ false).thrown = false →
      (copyAssign ttNat c0 ⟨[some 9], 1⟩ ⟨[some 1, some 2], 2⟩ false).vec.contents =
        (⟨[some 1, some 2], 2⟩ : Vector Nat).contents ∧
      (copyAssign ttNat c0 ⟨[some 9], 1⟩ ⟨[some 1, some 2], 2⟩ false).vec.Size =
        (⟨[some 1, some 2], 2⟩ : Vector Nat).Size) ∧
    ((copyAssign ttNat c0 ⟨[some 9], 1⟩ ⟨[some 1, some 2], 2⟩ false).thrown = true →
      (copyAssign ttNat c0 ⟨[some 9], 1⟩ ⟨[some 1, some 2], 2⟩ false).vec = ⟨[some 9], 1⟩) ∧
    copyAssign ttNat c0 ⟨[some 5], 1⟩ ⟨[some 5], 1⟩ true = ⟨false, ⟨[some 5], 1⟩, c0⟩) :=
  ⟨by decide, by decide, by decide,
    C5_copy_assign ttNat c0 ⟨[some 9], 1⟩ ⟨[some 1, some 2], 2⟩ ⟨[some 5], 1⟩
      (by decide) (by decide) (by decide)⟩

/-- C6: inserting a value at any boundary position p of a vector and then
erasing at p restores the original sequence: the same elements in the same
order with the same Size. -/
theorem C6_insert_erase_roundtrip [Inhabited α] (tt : Traits α) (c : Cnt)
    (v : Vector α) (p : Nat) (x : α) (hInv : Inv v) (hp : p ≤ v.Size)
    (hok : (Insert tt c v p x).thrown = false) :
    (Erase tt (Insert tt c v p x).vec p).contents = v.contents ∧
    (Erase tt (Insert tt c v p x).vec p).Size = v.Size := by
  have hp2 : p ≤ v.size := hp
  have hokE : (Emplace tt c v p (fun _ => x)).thrown = false := hok
  have hInvW := Inv_Emplace tt c v p (fun _ => x) hInv hp2
  have hsz := (Emplace_ok tt c v p (fun _ => x) hInv hp2 hokE).1
  have hcont := Emplace_ok_contents tt c v p (fun _ => x) hInv hp2 hokE
  have hpw : p < (Emplace tt c v p (fun _ => x)).vec.size := by omega
  have hec := Erase_contents tt (Emplace tt c v p (fun _ => x)).vec p hInvW hpw
  have hes := (Erase_spec tt (Emplace tt c v p (fun _ => x)).vec p hInvW hpw).1
  constructor
  · show (Erase tt (Emplace tt c v p (fun _ => x)).vec p).contents = v.contents
    rw [hec, hcont]
    exact List.eraseIdx_insertIdx p v.contents
  · show (Erase tt (Emplace tt c v p (fun _ => x)).vec p).size = v.size
    rw [hes, hsz]
    omega

/-- C6 (witness): the round trip applied at position 1 of the vector with
contents 1, 2 and one spare slot. -/
theorem C6_insert_erase_roundtrip_witness :
    Inv (⟨[some 1, some 2, none], 2⟩ : Vector Nat) ∧
    (1 : Nat) ≤ (⟨[some 1, some 2, none], 2⟩ : Vector Nat).Size ∧
    (Insert ttNat c0 ⟨[some 1, some 2, none], 2⟩ 1 9).thrown = false ∧
    ((Erase ttNat (Insert ttNat c0 ⟨[some 1, some 2, none], 2⟩ 1 9).vec 1).contents =
        (⟨[some 1, some 2, none], 2⟩ : Vector Nat).contents ∧
      (Erase ttNat (Insert ttNat c0 ⟨[some 1, some 2, none], 2⟩ 1 9).vec 1).Size =
        (⟨[some 1, some 2, none], 2⟩ : Vector Nat).Size) :=
  ⟨by decide, by decide, by decide,
    C6_insert_erase_roundtrip ttNat c0 ⟨[some 1, some 2, none], 2⟩ 1 9
      (by decide) (by decide) (by decide)⟩

/-- C8: the class invariant 0 less-or-equal Size less-or-equal Capacity holds
for a default-constructed vector, for every vector produced by the sized or
copy constructor, and at every externally observable point of every sequence
of public operations whose preconditions are respected. -/
theorem C8_invariant [Inhabited α] (tt : Traits α) :
    Inv (⟨[], 0⟩ : Vector α) ∧
    (∀ c n (w : Vector α) c1, mkSized tt c n = (some w, c1) → w.Size ≤ w.Capacity) ∧
    (∀ c (other w : Vector α) c1, Inv other → copyCtor tt c other = (some w, c1) →
      w.Size ≤ w.Capacity) ∧
    (∀ (ops : List (Op α)) (v : Vector α) c, Inv v → PreAll tt ops v c →
      ∀ w ∈ runStates tt ops v c, w.Size ≤ w.Capacity) := by
  refine ⟨⟨Nat.le_refl 0, fun i hi => absurd (show i < 0 from hi) (by omega)⟩, ?_, ?_, ?_⟩
  · intro c n w c1 h
    exact ((mkSized_ok tt c n w c1 h).2.2).1
  · intro c other w c1 hInvO h
    exact ((copyCtor_ok tt c other w c1 hInvO h).2.2.2).1
  · intro ops v c hInvV hPre w hw
    exact (Inv_runStates tt ops v c hInvV hPre w hw).1

/-- C8 (witness): a concrete run of thirteen public operations from the
empty integer vector, every intermediate state satisfying the invariant. -/
theorem C8_invariant_witness :
    Inv (⟨[], 0⟩ : Vector Nat) ∧ PreAll ttNat opsW ⟨[], 0⟩ c0 ∧
    ∀ w ∈ runStates ttNat opsW ⟨[], 0⟩ c0, w.Size ≤ w.Capacity :=
  ⟨by decide, by decide,
    (C8_invariant ttNat).2.2.2 opsW ⟨[], 0⟩ c0 (by decide) (by decide)⟩

/-- C10: with spare capacity and an interior position, Emplace constructs the
new value into a temporary before touching any element: if the value's
construction throws (the counter says the next construction throws) the call
returns with the vector - size, contents, storage - exactly as it was; and on
success the inserted value is the one computed from the memory as it was on
entry, so arguments referring to an existing element of the same vector are
read before any shift, giving the correct inserted value. -/
theorem C10_emplace_temp_first [Inhabited α] (tt : Traits α) (c : Cnt)
    (v : Vector α) (p : Nat) (mk : Mem α → α) (hInv : Inv v)
    (hp : p < v.Size) (hsp : v.Size < v.Capacity) :
    (tt.ctorThrows c.ctor = true →
      Emplace tt c v p mk = ⟨true, v, c.bumpCtor⟩) ∧
    ((Emplace tt c v p mk).thrown = false →
      (Emplace tt c v p mk).vec.contents = v.contents.insertIdx p (mk v.data) ∧
      (Emplace tt c v p mk).vec.Size = v.Size + 1) := by
  have hp2 : p < v.size := hp
  constructor
  · intro hth
    unfold Emplace
    rw [if_neg (by omega : ¬ v.size = p)]
    rw [if_pos (show v.size < v.Capacity from hsp)]
    rw [construct_throws tt c (mk v.data) hth]
  · intro hok
    exact ⟨Emplace_ok_contents tt c v p mk hInv (by omega) hok,
      (Emplace_ok tt c v p mk hInv (by omega) hok).1⟩

/-- C10 (witness): emplacing at position 0 of the vector with contents 10, 20
and a spare slot, where the constructor arguments read element 1 of the same
vector; the inserted value is 20, the element's value before the shift. -/
theorem C10_emplace_temp_first_witness :
    Inv vAlias ∧ (0 : Nat) < vAlias.Size ∧ vAlias.Size < vAlias.Capacity ∧
    mkAlias vAlias.data = 20 ∧
    (Emplace ttNat c0 vAlias 0 mkAlias).vec.contents = [20, 10, 20] ∧
    ((ttNat.ctorThrows c0.ctor = true →
      Emplace ttNat c0 vAlias 0 mkAlias = ⟨true, vAlias, c0.bumpCtor⟩) ∧
    ((Emplace ttNat c0 vAlias 0 mkAlias).thrown = false →
      (Emplace ttNat c0 vAlias 0 mkAlias).vec.contents =
        (Vector.contents vAlias).insertIdx 0 (mkAlias vAlias.data) ∧
      (Emplace ttNat c0 vAlias 0 mkAlias).vec.Size = vAlias.Size + 1)) :=
  ⟨by decide, by decide, by decide, by decide, by decide,
    C10_emplace_temp_first ttNat c0 vAlias 0 mkAlias (by decide) (by decide) (by decide)⟩

end NSV
